import Mathlib

/-!
Verification of the defined-term helper's text-extraction engine
(`src/taskpane.js`), shallowly embedded over `List Char` strings.
Each JS helper is translated into an executable Lean function of the
same name; JS regular expressions are implemented as deterministic
matchers that realise the backtracking semantics of the concrete
patterns on the inputs the program feeds them (every matcher in the
source is applied to `cleanText` output, whose whitespace runs are
single spaces).
-/

set_option maxRecDepth 200000

namespace DTH

/-- Strings of the JS program, as lists of unicode scalar characters.
JS `.length` counts UTF-16 units; every character this program
manipulates is in the BMP, where the two counts agree. -/
abbrev Str := List Char

/-! ### Character classes of the JS regexes -/

/-- `[\u0000-\u001F\u007F-\u009F]`, the control characters removed by `cleanText`. -/
def isCtrlChar (c : Char) : Bool :=
  decide (c.toNat ≤ 0x1F) || (decide (0x7F ≤ c.toNat) && decide (c.toNat ≤ 0x9F))

/-- `[“”]`, the curly double quotes mapped to `"` by `cleanText`. -/
def isCurlyQuote (c : Char) : Bool :=
  decide (c.toNat = 0x201C) || decide (c.toNat = 0x201D)

/-- JS `\s`: WhiteSpace plus LineTerminator. -/
def isJsSpace (c : Char) : Bool :=
  decide (c.toNat = 0x20) || (decide (0x9 ≤ c.toNat) && decide (c.toNat ≤ 0xD)) ||
  decide (c.toNat = 0xA0) || decide (c.toNat = 0x1680) ||
  (decide (0x2000 ≤ c.toNat) && decide (c.toNat ≤ 0x200A)) ||
  decide (c.toNat = 0x2028) || decide (c.toNat = 0x2029) ||
  decide (c.toNat = 0x202F) || decide (c.toNat = 0x205F) ||
  decide (c.toNat = 0x3000) || decide (c.toNat = 0xFEFF)

/-- JS `\w`: `[A-Za-z0-9_]`. -/
def isWordChar (c : Char) : Bool :=
  (decide (0x30 ≤ c.toNat) && decide (c.toNat ≤ 0x39)) ||
  (decide (0x41 ≤ c.toNat) && decide (c.toNat ≤ 0x5A)) ||
  decide (c.toNat = 0x5F) ||
  (decide (0x61 ≤ c.toNat) && decide (c.toNat ≤ 0x7A))

/-- JS line terminators, which `.` in a regex does not match. -/
def isLineTerm (c : Char) : Bool :=
  decide (c.toNat = 0xA) || decide (c.toNat = 0xD) ||
  decide (c.toNat = 0x2028) || decide (c.toNat = 0x2029)

/-- `["'\s]`, stripped from both ends by `normalizeTerm`'s first replace. -/
def isQuoteOrSpace (c : Char) : Bool :=
  decide (c.toNat = 0x22) || decide (c.toNat = 0x27) || isJsSpace c

/-- An ASCII uppercase letter. -/
def isAsciiUpper (c : Char) : Bool :=
  decide (0x41 ≤ c.toNat) && decide (c.toNat ≤ 0x5A)

/-- JS `String.prototype.toLowerCase`, restricted to the simple
one-to-one ASCII case mapping (the only letters the program's keyword
patterns involve). -/
def jsToLower (c : Char) : Char :=
  if 0x41 ≤ c.toNat ∧ c.toNat ≤ 0x5A then
    Char.ofNat (c.toNat + 32)
  else c

/-! ### Basic string operations -/

/-- Remove the longest suffix of characters satisfying `p`
(the right-hand half of a trim). -/
def rstrip (p : Char → Bool) : Str → Str
  | [] => []
  | c :: cs =>
    let r := rstrip p cs
    if r = [] then (if p c then [] else [c]) else c :: r

/-- Remove the longest prefix and suffix of characters satisfying `p`:
the effect of a global JS replace of `^P+|P+$` by the empty string. -/
def dropAround (p : Char → Bool) (l : Str) : Str :=
  rstrip p (l.dropWhile p)

/-- JS `String.prototype.trim`. -/
def jsTrim (l : Str) : Str := dropAround isJsSpace l

/-- Fuel-indexed worker for `collapseWs`; the fuel never runs out when it
starts at the string's length, since every step consumes at least one
character. -/
def collapseGo : Nat → Str → Str
  | _, [] => []
  | 0, l => l
  | fuel + 1, c :: cs =>
    if isJsSpace c then ' ' :: collapseGo fuel (cs.dropWhile isJsSpace)
    else c :: collapseGo fuel cs

/-- JS `.replace(/\s+/g, " ")`: each maximal whitespace run becomes one space. -/
def collapseWs (l : Str) : Str := collapseGo l.length l

/-- The curly-quote normalisation `.replace(/[“”]/g, '"')`, per character. -/
def mapCurly (c : Char) : Char := if isCurlyQuote c then '"' else c

/-- The first two replaces of `cleanText`: strip control characters,
then map curly double quotes to a straight quote. -/
def preClean (s : Str) : Str :=
  (s.filter (fun c => !isCtrlChar c)).map mapCurly

/-- `cleanText` from the source: strip C0/C1 controls, normalise curly
double quotes, collapse whitespace runs to single spaces, trim. -/
def cleanText (s : Str) : Str :=
  jsTrim (collapseWs (preClean s))

/-- Lowercase a string character-wise. -/
def jsToLowerStr (s : Str) : Str := s.map jsToLower

/-- `normalizeTerm` from the source: `cleanText`, strip leading/trailing
quote or space characters, strip leading/trailing non-word characters,
lowercase. -/
def normalizeTerm (s : Str) : Str :=
  jsToLowerStr (dropAround (fun c => !isWordChar c) (dropAround isQuoteOrSpace (cleanText s)))

/-- Does `s` end with `suf` (JS `String.prototype.endsWith`)? -/
def strEndsWith (s suf : Str) : Bool := List.isSuffixOf suf s

/-- `singularize` from the source. `slice(0, -n)` is `take (length - n)`. -/
def singularize (term : Str) : Str :=
  if term = [] then term
  else if strEndsWith term ['i', 'e', 's'] then term.take (term.length - 3) ++ ['y']
  else if strEndsWith term ['s', 'e', 's'] then term.take (term.length - 2)
  else if strEndsWith term ['s'] && !strEndsWith term ['s', 's'] then term.take (term.length - 1)
  else term

/-- `truncate` from the source: strings of length at most `maxLen` pass
through; longer ones become the trimmed `maxLen - 1` prefix plus an
ellipsis character. -/
def truncate (s : Str) (maxLen : Nat) : Str :=
  if s = [] then s
  else if s.length ≤ maxLen then s
  else jsTrim (s.take (maxLen - 1)) ++ ['…']

/-- Is `needle` a prefix of `hay` (character-exact)? -/
def strStartsWith : Str → Str → Bool
  | _, [] => true
  | [], _ :: _ => false
  | a :: as', b :: bs => (a == b) && strStartsWith as' bs

/-- Is `needle` a case-insensitive (ASCII folding) prefix of `hay`? -/
def ciStartsWith : Str → Str → Bool
  | _, [] => true
  | [], _ :: _ => false
  | a :: as', b :: bs => (jsToLower a == jsToLower b) && ciStartsWith as' bs

/-- JS `String.prototype.includes`: substring containment. -/
def strContains : Str → Str → Bool
  | hay, needle =>
    if strStartsWith hay needle then true
    else match hay with
      | [] => false
      | _ :: t => strContains t needle

/-- JS `String.prototype.lastIndexOf`, with `-1` for "not found". -/
def lastIndexOfInt (hay needle : Str) : Int :=
  match (((List.range (hay.length + 1)).filter
      (fun i => strStartsWith (hay.drop i) needle)).getLast?) with
  | some i => (i : Int)
  | none => -1

/-- `unique` from the source (`Array.from(new Set(arr))`): first
occurrences, in order. -/
def jsUniqueGo (seen : List Str) : List Str → List Str
  | [] => []
  | x :: xs => if x ∈ seen then jsUniqueGo seen xs else x :: jsUniqueGo (x :: seen) xs

def jsUnique (l : List Str) : List Str := jsUniqueGo [] l

/-! ### The two table-building regexes

`directRe  = /^"([^"]+)"\s+(means|shall mean|includes|shall include|has the following meaning)\s+(.+?)\s*[.;:]?\s*$/i`
`xrefRe    = /^"([^"]+)"\s+has the meaning\s+(given in|set out in|set forth in)\s+clause\s+([0-9]+(?:\.[0-9]+)*)\b.*\s*[.;:]?\s*$/i`

Both are applied to `cleanText` output only, where every whitespace run
is a single space, so a greedy maximal `\s+` never needs to backtrack. -/

/-- `[.;:]`, the optional trailing punctuation of both patterns. -/
def isEndPunct (c : Char) : Bool := c == '.' || c == ';' || c == ':'

/-- Does `r` match `\s*[.;:]?\s*` in full (up to the end anchor)? -/
def wsPunctWsTail (r : Str) : Bool :=
  match r.dropWhile isJsSpace with
  | [] => true
  | p :: r2 => isEndPunct p && (r2.dropWhile isJsSpace).isEmpty

/-- The lazy capture `(.+?)` of `directRe` followed by `\s*[.;:]?\s*$`:
the shortest non-empty prefix of line-terminator-free characters whose
remainder matches the tail. -/
def findG3 (acc : Str) : Str → Option Str
  | [] => none
  | c :: rest =>
    if isLineTerm c then none
    else if wsPunctWsTail rest then some (acc ++ [c])
    else findG3 (acc ++ [c]) rest

/-- The verb alternation of `directRe`, in source order. -/
def directVerbs : List Str :=
  ["means".data, "shall mean".data, "includes".data, "shall include".data,
   "has the following meaning".data]

/-- After a verb of `directRe`: `\s+` then the lazy definition capture. -/
def afterVerbDirect (r2 : Str) : Option Str :=
  if (r2.takeWhile isJsSpace).isEmpty then none
  else findG3 [] (r2.dropWhile isJsSpace)

/-- Try the verb alternatives in order; on a prefix match whose
continuation fails, backtrack to the next alternative. -/
def tryDirectVerbs (term : Str) : List Str → Str → Option (Str × Str)
  | [], _ => none
  | v :: vs, r =>
    if ciStartsWith r v then
      match afterVerbDirect (r.drop v.length) with
      | some g3 => some (term, g3)
      | none => tryDirectVerbs term vs r
    else tryDirectVerbs term vs r

/-- Match `directRe` against a full paragraph, returning the quoted term
(capture 1) and the definition text (capture 3). -/
def matchDirectRe : Str → Option (Str × Str)
  | '"' :: rest =>
    let term := rest.takeWhile (fun d => d ≠ '"')
    match rest.dropWhile (fun d => d ≠ '"') with
    | [] => none
    | _ :: rest2 =>
      if term = [] then none
      else if (rest2.takeWhile isJsSpace).isEmpty then none
      else tryDirectVerbs term directVerbs (rest2.dropWhile isJsSpace)
  | _ => none

/-- `[0-9]`. -/
def isDigitCh (c : Char) : Bool := decide (0x30 ≤ c.toNat) && decide (c.toNat ≤ 0x39)

/-- Fuel-indexed worker for `dottedTail` (fuel starts at the string's
length and never runs out). -/
def dottedGo : Nat → Str → List Str × Str
  | _, [] => ([], [])
  | 0, s => ([], s)
  | fuel + 1, c :: s' =>
    if c = '.' then
      let ds := s'.takeWhile isDigitCh
      if ds = [] then ([], c :: s')
      else
        let (gs, rest) := dottedGo fuel (s'.dropWhile isDigitCh)
        (('.' :: ds) :: gs, rest)
    else ([], c :: s')

/-- The groups consumed by `(?:\.[0-9]+)*`: maximal repetitions of a dot
followed by a maximal digit run. Returns the groups and the rest. -/
def dottedTail (s : Str) : List Str × Str := dottedGo s.length s

/-- Does `r` match `.*\s*[.;:]?\s*$` (as after the clause number's `\b`)? -/
def anySplitTail (r : Str) : Bool :=
  (List.range (r.length + 1)).any (fun i =>
    (r.take i).all (fun c => !isLineTerm c) && wsPunctWsTail (r.drop i))

/-- `([0-9]+(?:\.[0-9]+)*)\b` with its backtracking: the dotted numeral
is maximal; if a word character follows, the last `.digits` group is
given back (after which a dot follows, satisfying `\b`); shortening a
digit run never helps because a digit would follow. Returns the capture
and the remainder. -/
def matchClauseNum (r : Str) : Option (Str × Str) :=
  let d0 := r.takeWhile isDigitCh
  if d0 = [] then none
  else
    let (gs, rest) := dottedTail (r.dropWhile isDigitCh)
    match rest with
    | c :: _ =>
      if isWordChar c then
        match gs.getLast? with
        | some lastG => some (d0 ++ gs.dropLast.flatten, lastG ++ rest)
        | none => none
      else some (d0 ++ gs.flatten, rest)
    | [] => some (d0 ++ gs.flatten, rest)

/-- The alternation `(given in|set out in|set forth in)` (prefix-disjoint). -/
def xrefGivenAlts : List Str := ["given in".data, "set out in".data, "set forth in".data]

/-- Match `xrefRe` against a full paragraph, returning the quoted term
(capture 1) and the clause reference (capture 3). -/
def matchXrefRe : Str → Option (Str × Str)
  | '"' :: rest =>
    let term := rest.takeWhile (fun d => d ≠ '"')
    match rest.dropWhile (fun d => d ≠ '"') with
    | [] => none
    | _ :: rest2 =>
      if term = [] then none
      else if (rest2.takeWhile isJsSpace).isEmpty then none
      else
        let r3 := rest2.dropWhile isJsSpace
        if !ciStartsWith r3 "has the meaning".data then none
        else
          let r4 := r3.drop 15
          if (r4.takeWhile isJsSpace).isEmpty then none
          else
            let r5 := r4.dropWhile isJsSpace
            match xrefGivenAlts.find? (fun a => ciStartsWith r5 a) with
            | none => none
            | some alt =>
              let r6 := r5.drop alt.length
              if (r6.takeWhile isJsSpace).isEmpty then none
              else
                let r7 := r6.dropWhile isJsSpace
                if !ciStartsWith r7 "clause".data then none
                else
                  let r8 := r7.drop 6
                  if (r8.takeWhile isJsSpace).isEmpty then none
                  else
                    match matchClauseNum (r8.dropWhile isJsSpace) with
                    | some (cref, rem) =>
                      if anySplitTail rem then some (term, cref) else none
                    | none => none
  | _ => none

/-! ### The definition-table builder

The tables are bare `{}` objects, so they inherit from
`Object.prototype`: a read of a key with no own property consults the
prototype chain, and an assignment to the key "__proto__" invokes the
inherited accessor's setter instead of creating an own property (the
setter ignores a primitive value and, given an object value, replaces
the receiver's prototype with it). -/

/-- The property key "__proto__", an inherited accessor on `{}`. -/
def protoKey : Str := "__proto__".data

/-- The string-keyed properties a bare `{}` inherits from
`Object.prototype`. Every one of their values — a built-in function,
or, for the "__proto__" getter, the receiver's prototype object — is
truthy. -/
def objProtoKeys : List Str :=
  ["constructor".data, "hasOwnProperty".data, "isPrototypeOf".data,
   "propertyIsEnumerable".data, "toLocaleString".data, "toString".data,
   "valueOf".data, "__defineGetter__".data, "__defineSetter__".data,
   "__lookupGetter__".data, "__lookupSetter__".data, "__proto__".data]

/-- The two mappings produced by a scan: the own string-keyed
properties of each table object, plus the xref table's prototype slot
(see `xrefAssign`). The direct table's prototype is always
`Object.prototype`, since its values are strings and the "__proto__"
setter ignores them. -/
structure DefTables where
  direct : Str → Option Str
  xref : Str → Option (Str × Str)
  xrefChain : Option (Str × Str)

/-- An own-property write (last write wins; shadows the prototype). -/
def tblUpdate {α : Type} (f : Str → Option α) (k : Str) (v : α) : Str → Option α :=
  fun k' => if k' = k then some v else f k'

/-- `direct[k] = v` with `v` a string: at the key "__proto__" the
inherited setter runs and ignores the primitive value, storing
nothing; every other key gets an own property. -/
def directAssign (acc : DefTables) (k : Str) (v : Str) : DefTables :=
  if k = protoKey then acc
  else { acc with direct := tblUpdate acc.direct k v }

/-- `xref[k] = entry` with `entry` an object: at the key "__proto__"
the inherited setter replaces the table's prototype with the entry
object; every other key gets an own property. -/
def xrefAssign (acc : DefTables) (k : Str) (e : Str × Str) : DefTables :=
  if k = protoKey then { acc with xrefChain := some e }
  else { acc with xref := tblUpdate acc.xref k e }

def emptyTables : DefTables := ⟨fun _ => none, fun _ => none, none⟩

/-- One loop iteration of `extractDefsFromParagraphs`: clean the
paragraph, skip if empty, try the direct pattern, then the
cross-reference pattern. -/
def extractStep (acc : DefTables) (raw : Str) : DefTables :=
  let t := cleanText raw
  if t = [] then acc
  else
    match matchDirectRe t with
    | some (term, g3) => directAssign acc (normalizeTerm term) (jsTrim g3)
    | none =>
      match matchXrefRe t with
      | some (term, cref) => xrefAssign acc (normalizeTerm term) (cref, t)
      | none => acc

/-- `extractDefsFromParagraphs` from the source. -/
def extractDefsFromParagraphs (ps : List Str) : DefTables :=
  ps.foldl extractStep emptyTables

/-! ### The embedded-definition extractor -/

/-- The matches of `/\(([^)]+)\)/g` over a paragraph, in order, each as
(text before the `(`, interior). A `(` with no later `)` ends the scan;
an immediately closed `()` is skipped (its interior needs a character). -/
def scanParensGo : Nat → Str → Str → List (Str × Str)
  | _, _, [] => []
  | 0, _, _ => []
  | fuel + 1, pre, c :: rest =>
    if c = '(' then
      let inside := rest.takeWhile (fun d => d ≠ ')')
      let rem := rest.dropWhile (fun d => d ≠ ')')
      if rem = [] then []
      else if inside = [] then scanParensGo fuel (pre ++ [c]) rest
      else (pre, inside) :: scanParensGo fuel (pre ++ [c] ++ inside ++ [')']) rem.tail
    else scanParensGo fuel (pre ++ [c]) rest

def scanParens (pre s : Str) : List (Str × Str) := scanParensGo s.length pre s

/-- A case-insensitive literal followed by `\s+`; returns the remainder. -/
def matchLitWs (lit : Str) (r : Str) : Option Str :=
  if ciStartsWith r lit then
    let r' := r.drop lit.length
    if (r'.takeWhile isJsSpace).isEmpty then none
    else some (r'.dropWhile isJsSpace)
  else none

/-- Does `r` match `being\s+the\s+"[^"]+"\s*$`? -/
def tailBeingQuote (r : Str) : Bool :=
  match matchLitWs "being".data r with
  | none => false
  | some r1 =>
    match matchLitWs "the".data r1 with
    | none => false
    | some r2 =>
      match r2 with
      | '"' :: r3 =>
        let content := r3.takeWhile (fun d => d ≠ '"')
        (match r3.dropWhile (fun d => d ≠ '"') with
         | [] => false
         | _ :: r4 => !content.isEmpty && r4.all isJsSpace)
      | _ => false

/-- The capture of `(.+)\s*$`: the longest non-empty line-terminator-free
prefix whose remainder is all whitespace. -/
def matchDotPlusWsEnd (r : Str) : Option Str :=
  let maxA := (r.takeWhile (fun c => !isLineTerm c)).length
  (((List.range (r.length + 1)).filter (fun j =>
      decide (1 ≤ j) && decide (j ≤ maxA) && (r.drop j).all isJsSpace)).getLast?).map
    (fun j => r.take j)

/-- `being\s+the\s+(.+)\s*$`: on success, the capture `(.+)`. -/
def tailBeingAny (r : Str) : Option Str :=
  match matchLitWs "being".data r with
  | none => none
  | some r1 =>
    match matchLitWs "the".data r1 with
    | none => none
    | some r2 => matchDotPlusWsEnd r2

/-- The greedy `(.*)` before `\bbeing...`: the largest split position
with a word boundary whose suffix satisfies `tailOk`, the prefix free of
line terminators. -/
def lastBoundarySplit (t : Str) (tailOk : Str → Bool) : Option Nat :=
  ((List.range (t.length + 1)).filter (fun i =>
      (decide (i = 0) || !isWordChar (t.getD (i - 1) ' ')) &&
      (t.take i).all (fun c => !isLineTerm c) &&
      tailOk (t.drop i))).getLast?

/-- `extractFromParentheticalItself` from the source: the two
`<X> being the Term` patterns inside a parenthetical, each guarded by a
non-empty capture 1 and a 15-character minimum. -/
def extractFromParentheticalItself (parenText termKey : Str) : Option Str :=
  let t := cleanText parenText
  let r1 : Option Str :=
    match lastBoundarySplit t tailBeingQuote with
    | some i =>
      let m1 := t.take i
      if m1 ≠ [] then
        let candidate := cleanText m1
        if 15 ≤ candidate.length then some candidate else none
      else none
    | none => none
  match r1 with
  | some c => some c
  | none =>
    match lastBoundarySplit t (fun r => (tailBeingAny r).isSome) with
    | some i =>
      let m1 := t.take i
      match tailBeingAny (t.drop i) with
      | some m2 =>
        if m1 ≠ [] && strContains (normalizeTerm m2) termKey then
          let candidate := cleanText m1
          if 15 ≤ candidate.length then some candidate else none
        else none
      | none => none
    | none => none

/-- Words joined by `\s+`, case-insensitive; after the last word the
pattern ends (no trailing whitespace requirement). -/
def matchWordSeq : List Str → Str → Option Str
  | [], r => some r
  | [w], r => if ciStartsWith r w then some (r.drop w.length) else none
  | w :: ws, r =>
    if ciStartsWith r w then
      let r' := r.drop w.length
      if (r'.takeWhile isJsSpace).isEmpty then none
      else matchWordSeq ws (r'.dropWhile isJsSpace)
    else none

/-- `/^(any\s+such\s+amount|such\s+amount|any\s+amount)\b/i.test(inside)`:
note that `\b` after "amount" rejects a following word character, so the
plural "amounts" fails the test. -/
def amountLeadTest (inside : Str) : Bool :=
  [["any".data, "such".data, "amount".data],
   ["such".data, "amount".data],
   ["any".data, "amount".data]].any (fun alt =>
    match matchWordSeq alt inside with
    | some r =>
      match r with
      | [] => true
      | c :: _ => !isWordChar c
    | none => false)

/-- `^such\s+amounts?\s+as\s+` (with `withAs`) or `^such\s+amounts?\s+`:
on a match, the remainder after the pattern. The optional `s` is taken
greedily and given back if the continuation fails. -/
def matchSuchPat (withAs : Bool) (s : Str) : Option Str :=
  match matchLitWs "such".data s with
  | none => none
  | some r1 =>
    if !ciStartsWith r1 "amount".data then none
    else
      let afterAmount := r1.drop 6
      let tryRest : Str → Option Str := fun r2 =>
        if (r2.takeWhile isJsSpace).isEmpty then none
        else
          let r3 := r2.dropWhile isJsSpace
          if withAs then
            if ciStartsWith r3 "as".data then
              let r4 := r3.drop 2
              if (r4.takeWhile isJsSpace).isEmpty then none
              else some (r4.dropWhile isJsSpace)
            else none
          else some r3
      match afterAmount with
      | c :: r2' =>
        if jsToLower c = 's' then
          match tryRest r2' with
          | some r => some r
          | none => tryRest afterAmount
        else tryRest afterAmount
      | [] => none

/-- The two chained replaces of `extractAmountsReferent`: rewrite a
leading "such amount(s) as " or "such amount(s) " to "amounts ". -/
def matchSuchAmountRewrite (candidate : Str) : Str :=
  let r1 :=
    match matchSuchPat true candidate with
    | some rem => "amounts ".data ++ rem
    | none => candidate
  match matchSuchPat false r1 with
  | some rem => "amounts ".data ++ rem
  | none => r1

/-- `.` `?` `!` — the sentence-ending characters of `lastSentence`. -/
def isSentEnd (c : Char) : Bool := c == '.' || c == '?' || c == '!'

def sentSplitGo : Nat → Str → Str → List Str
  | _, cur, [] => [cur]
  | 0, cur, rest => [cur ++ rest]
  | fuel + 1, cur, c :: rest =>
    if isSentEnd c && !(rest.takeWhile isJsSpace).isEmpty then
      cur :: sentSplitGo fuel [] (rest.dropWhile isJsSpace)
    else sentSplitGo fuel (cur ++ [c]) rest

/-- JS `t.split(/[.?!]\s+/)`: pieces between matches of a sentence-ending
character followed by a whitespace run. -/
def sentSplitAux (cur s : Str) : List Str := sentSplitGo s.length cur s

/-- `lastSentence` from the source. -/
def lastSentence (text : Str) : Option Str :=
  let t := cleanText text
  if t = [] then none
  else
    let parts := ((sentSplitAux [] t).map jsTrim).filter (fun s => s ≠ [])
    match parts.getLast? with
    | none => some t
    | some last => some last

/-- `extractAmountsReferent` from the source. -/
def extractAmountsReferent (beforeText : Str) : Option Str :=
  let b := cleanText beforeText
  let idx := lastIndexOfInt (jsToLowerStr b) "such amounts".data
  let idx2 := lastIndexOfInt (jsToLowerStr b) "such amount".data
  let startIdx := max idx idx2
  if startIdx ≠ -1 then
    let candidate := jsTrim (b.drop startIdx.toNat)
    some (matchSuchAmountRewrite candidate)
  else lastSentence b

/-- The cue words of `extractNearestPhrase`, in source order. -/
def nearCues : List Str :=
  [" via ".data, " as ".data, " in the form of ".data, " through ".data, " using ".data]

/-- `.replace(/^(via|as|through|using)\s+/i, "")`. -/
def stripLeadCue (s : Str) : Str :=
  match ["via".data, "as".data, "through".data, "using".data].findSome? (fun w =>
    if ciStartsWith s w then
      let r := s.drop w.length
      if (r.takeWhile isJsSpace).isEmpty then none else some (r.dropWhile isJsSpace)
    else none) with
  | some r => r
  | none => s

/-- `extractNearestPhrase` from the source. -/
def extractNearestPhrase (before : Str) : Str :=
  let b := before
  let cuePos := nearCues.foldl (fun acc cue =>
    let pos := lastIndexOfInt (jsToLowerStr b) cue
    if pos > acc then pos else acc) (-1)
  let delimPos := ['.', ';', ':'].foldl (fun acc d =>
    let pos := lastIndexOfInt b [d]
    if pos > acc then pos else acc) (-1)
  let start1 : Int := if delimPos ≠ -1 then delimPos + 1 else 0
  let start : Int := if cuePos ≠ -1 then max start1 cuePos else start1
  stripLeadCue (jsTrim (b.drop start.toNat))

/-- The body of the parenthetical loop after a parenthetical has matched
the term: the ordered fallback chain of
`extractMeaningFromParentheticalSentence` (lines 170–188 of the source),
with JS truthiness at each `return`. -/
def attemptExtraction (termKey inside beforeSlice : Str) : Option Str :=
  let before := cleanText (jsTrim beforeSlice)
  let stage4 : Option Str :=
    match lastSentence before with
    | some s => if s = [] then none else some s
    | none => none
  let stage3 : Option Str :=
    let phrase := extractNearestPhrase before
    if !phrase.isEmpty && decide (20 ≤ phrase.length) then some phrase else stage4
  let stage2 : Option Str :=
    if amountLeadTest inside then
      match extractAmountsReferent before with
      | some w => if w = [] then stage3 else some w
      | none => stage3
    else stage3
  match extractFromParentheticalItself inside termKey with
  | some fp => if fp = [] then stage2 else some fp
  | none => stage2

/-- The `while ((m = parenRe.exec(paragraph)))` loop: skip parentheticals
whose normalised interior contains neither the term key nor its
singular/plural variant; on the first matching one, return that
parenthetical's extraction outcome (even when it is null). -/
def tryParens (termKey : Str) : List (Str × Str) → Option Str
  | [] => none
  | (beforeSlice, insideRaw) :: rest =>
    let inside := cleanText insideRaw
    let insideNorm := normalizeTerm inside
    let sk := singularize termKey
    if strContains insideNorm termKey || (!sk.isEmpty && strContains insideNorm sk) then
      attemptExtraction termKey inside beforeSlice
    else tryParens termKey rest

/-- `extractMeaningFromParentheticalSentence` from the source. -/
def extractMeaningFromParentheticalSentence (paragraph termKey : Str) : Option Str :=
  tryParens termKey (scanParens [] paragraph)

/-- First non-null, non-empty entry of a candidate list. -/
def firstTruthy : List (Option Str) → Option Str
  | [] => none
  | o :: os =>
    match o with
    | some s => if s = [] then firstTruthy os else some s
    | none => firstTruthy os

/-- The extraction heuristics as an explicit ordered chain: (a) the
parenthetical-internal patterns, (b) the amount-referent rewrite when
the interior leads with an amount phrase, (b') the nearest-phrase
heuristic gated at 20 characters, (c) the last sentence. -/
def extractionChain (termKey inside beforeSlice : Str) : Option Str :=
  let before := cleanText (jsTrim beforeSlice)
  firstTruthy
    [extractFromParentheticalItself inside termKey,
     (if amountLeadTest inside then extractAmountsReferent before else none),
     (if 20 ≤ (extractNearestPhrase before).length then some (extractNearestPhrase before)
      else none),
     lastSentence before]

/-- `findEmbeddedDefinitionParagraphAndExtract` from the source. -/
def findEmbeddedDefinitionParagraphAndExtract : List Str → Str → Option Str
  | [], _ => none
  | raw :: rest, termKey =>
    let p := cleanText raw
    if p.contains '(' && p.contains ')' then
      match extractMeaningFromParentheticalSentence p termKey with
      | some e =>
        if e = [] then findEmbeddedDefinitionParagraphAndExtract rest termKey
        else some (truncate e 260)
      | none => findEmbeddedDefinitionParagraphAndExtract rest termKey
    else findEmbeddedDefinitionParagraphAndExtract rest termKey

/-! ### The glossary resolver -/

/-- The `GLOSSARY` snapshot: the two tables (own properties plus the
xref table's prototype slot) and the paragraph corpus. -/
structure Glossary where
  direct : Str → Option Str
  xref : Str → Option (Str × Str)
  xrefChain : Option (Str × Str)
  paraTexts : List Str

/-- The snapshot built by `buildGlossary` from the document paragraphs. -/
def buildGlossaryTables (ps : List Str) : Glossary :=
  let tb := extractDefsFromParagraphs ps
  ⟨tb.direct, tb.xref, tb.xrefChain, ps⟩

/-- The observable outcome of one `onSelectionChanged` lookup.
`foundInherited` is the direct-loop hit on a key with no own property
whose read is nonetheless truthy via `Object.prototype` (the UI then
shows the inherited function or object). The clause reference carried
by the cross-reference outcomes is `none` when `.clauseRef` was read
off an inherited value (`undefined` in the source). -/
inductive LookupResult where
  | noTerm : LookupResult
  | found : Str → Str → LookupResult
  | foundInherited : Str → Str → LookupResult
  | foundViaClause : Str → Str → Option Str → LookupResult
  | xrefNoExtract : Str → Option Str → LookupResult
  | notFound : Str → LookupResult
deriving DecidableEq

/-- A truthy read `GLOSSARY.direct[key]`: a non-empty stored own
string, or a member inherited from `Object.prototype`. -/
inductive DirectHit where
  | stored : Str → DirectHit
  | inherited : Str → DirectHit
deriving DecidableEq

/-- The first direct-table probe loop (`if (GLOSSARY.direct[key])`):
an own property shadows the prototype and hits iff its string value is
non-empty; a key with no own property reads from `Object.prototype`,
whose members are all truthy. -/
def firstDirectHit (g : Glossary) : List Str → Option DirectHit
  | [] => none
  | k :: ks =>
    match g.direct k with
    | some v => if v = [] then firstDirectHit g ks else some (.stored v)
    | none =>
      if k ∈ objProtoKeys then some (.inherited k) else firstDirectHit g ks

/-- The value a read `GLOSSARY.xref[key]` yields: an own entry object;
a string field inherited from an entry spliced in as the table's
prototype; the object the inherited "__proto__" getter returns (the
spliced entry if any, else `Object.prototype`, modelled `none`);
another inherited `Object.prototype` member; or `undefined`. -/
inductive XrefVal where
  | missing : XrefVal
  | entry : Str → Str → XrefVal
  | fld : Str → XrefVal
  | protoObj : Option (Str × Str) → XrefVal
  | protoMember : XrefVal
deriving DecidableEq

/-- Property lookup on the xref table: own properties first, then the
spliced entry (whose own fields are "clauseRef" and "rawLine"), then
`Object.prototype`. -/
def xrefRead (g : Glossary) (k : Str) : XrefVal :=
  match g.xref k with
  | some e => .entry e.1 e.2
  | none =>
    match g.xrefChain with
    | some e =>
      if k = "clauseRef".data then .fld e.1
      else if k = "rawLine".data then .fld e.2
      else if k = protoKey then .protoObj (some e)
      else if k ∈ objProtoKeys then .protoMember
      else .missing
    | none =>
      if k = protoKey then .protoObj none
      else if k ∈ objProtoKeys then .protoMember
      else .missing

/-- JS truthiness of an `xref[key]` read: `undefined` and an empty
inherited string field are falsy; objects and functions are truthy. -/
def xrefTruthy : XrefVal → Bool
  | .missing => false
  | .fld s => !s.isEmpty
  | _ => true

/-- The `.clauseRef` access on an `xref[key]` read: defined on an own
entry and on the object the "__proto__" getter returns after a splice;
`undefined` (modelled `none`) otherwise. -/
def xrefClauseField : XrefVal → Option Str
  | .entry c _ => some c
  | .protoObj (some e) => some e.1
  | _ => none

/-- The cross-reference probe loop (`if (GLOSSARY.xref[key])`). -/
def firstXrefHit (g : Glossary) : List Str → Option (Str × XrefVal)
  | [] => none
  | k :: ks =>
    let v := xrefRead g k
    if xrefTruthy v then some (k, v) else firstXrefHit g ks

/-- The lookup core of `onSelectionChanged` (source lines 54–90). -/
def resolveSelection (g : Glossary) (selText : Str) : LookupResult :=
  let rawSelected := cleanText selText
  let selectedKey := normalizeTerm rawSelected
  if selectedKey = [] then .noTerm
  else
    let candidates := jsUnique (([selectedKey, singularize selectedKey]).filter (fun s => s ≠ []))
    match firstDirectHit g candidates with
    | some (.stored v) => .found rawSelected v
    | some (.inherited k) => .foundInherited rawSelected k
    | none =>
      match firstXrefHit g candidates with
      | some (key, v) =>
        (match findEmbeddedDefinitionParagraphAndExtract g.paraTexts key with
         | some hit =>
           if hit = [] then .xrefNoExtract rawSelected (xrefClauseField v)
           else .foundViaClause rawSelected hit (xrefClauseField v)
         | none => .xrefNoExtract rawSelected (xrefClauseField v))
      | none => .notFound rawSelected

/-! ### Auxiliary predicates used in statements -/

/-- `b` is `a` with the letter case of some characters changed
(characters equal up to the ASCII case fold). -/
def caseVariant : Str → Str → Bool
  | [], [] => true
  | a :: as', b :: bs => (jsToLower a == jsToLower b) && caseVariant as' bs
  | _, _ => false

/-- Does processing this paragraph write the direct table at key `k`? -/
def directRedefines (raw : Str) (k : Str) : Bool :=
  match matchDirectRe (cleanText raw) with
  | some (term, _) => normalizeTerm term == k
  | none => false

/-- A character neither removed nor rewritten by `preClean`. -/
def goodCh (c : Char) : Bool := !isCtrlChar c && !isCurlyQuote c

/-- Whitespace-canonical: every whitespace character is a plain space
and no two whitespace characters are adjacent — exactly the strings
`collapseWs` leaves unchanged. -/
def wsCanon : Str → Bool
  | [] => true
  | a :: x =>
    (!isJsSpace a ||
      ((a == ' ') && (match x.head? with | some b => !isJsSpace b | none => true))) &&
    wsCanon x

/-! ## Lemmas: characters and the case fold -/

theorem toNat_ofNat_small (n : Nat) (h1 : 97 ≤ n) (h2 : n ≤ 122) :
    (Char.ofNat n).toNat = n := by
  have hv : n.isValidChar := Or.inl (by omega)
  simp [Char.ofNat, hv, Char.ofNatAux, Char.toNat, UInt32.toNat]

theorem char_eq_iff_toNat (a b : Char) : a = b ↔ a.toNat = b.toNat := by
  constructor
  · intro h; rw [h]
  · intro h
    apply Char.ext
    exact UInt32.toNat.inj h

theorem jsToLower_eq_self (c : Char) (h : ¬(0x41 ≤ c.toNat ∧ c.toNat ≤ 0x5A)) :
    jsToLower c = c := by
  simp [jsToLower, h]

theorem jsToLower_toNat_of_upper (c : Char) (h : 0x41 ≤ c.toNat ∧ c.toNat ≤ 0x5A) :
    (jsToLower c).toNat = c.toNat + 32 := by
  simp only [jsToLower, if_pos h]
  exact toNat_ofNat_small _ (by omega) (by omega)

theorem isJsSpace_false_mid (c : Char) (h1 : 48 ≤ c.toNat) (h2 : c.toNat ≤ 122) :
    isJsSpace c = false := by
  simp only [isJsSpace, Bool.or_eq_false_iff, Bool.and_eq_false_iff,
    decide_eq_false_iff_not]
  omega

theorem isCtrlChar_false_mid (c : Char) (h1 : 48 ≤ c.toNat) (h2 : c.toNat ≤ 122) :
    isCtrlChar c = false := by
  simp only [isCtrlChar, Bool.or_eq_false_iff, Bool.and_eq_false_iff,
    decide_eq_false_iff_not]
  omega

theorem isCurlyQuote_false_mid (c : Char) (h1 : 48 ≤ c.toNat) (h2 : c.toNat ≤ 122) :
    isCurlyQuote c = false := by
  simp only [isCurlyQuote, Bool.or_eq_false_iff, decide_eq_false_iff_not]
  omega

theorem isWordChar_true_letter (c : Char)
    (h : (0x41 ≤ c.toNat ∧ c.toNat ≤ 0x5A) ∨ (0x61 ≤ c.toNat ∧ c.toNat ≤ 0x7A)) :
    isWordChar c = true := by
  simp only [isWordChar, Bool.or_eq_true, Bool.and_eq_true, decide_eq_true_eq]
  omega

theorem isAsciiUpper_false_iff (c : Char) :
    isAsciiUpper c = false ↔ ¬(0x41 ≤ c.toNat ∧ c.toNat ≤ 0x5A) := by
  simp only [isAsciiUpper, Bool.and_eq_false_iff, decide_eq_false_iff_not]
  omega

theorem isJsSpace_jsToLower (c : Char) : isJsSpace (jsToLower c) = isJsSpace c := by
  by_cases h : 0x41 ≤ c.toNat ∧ c.toNat ≤ 0x5A
  · rw [isJsSpace_false_mid (jsToLower c) (by rw [jsToLower_toNat_of_upper c h]; omega)
      (by rw [jsToLower_toNat_of_upper c h]; omega),
      isJsSpace_false_mid c (by omega) (by omega)]
  · rw [jsToLower_eq_self c h]

theorem isCtrlChar_jsToLower (c : Char) : isCtrlChar (jsToLower c) = isCtrlChar c := by
  by_cases h : 0x41 ≤ c.toNat ∧ c.toNat ≤ 0x5A
  · rw [isCtrlChar_false_mid (jsToLower c) (by rw [jsToLower_toNat_of_upper c h]; omega)
      (by rw [jsToLower_toNat_of_upper c h]; omega),
      isCtrlChar_false_mid c (by omega) (by omega)]
  · rw [jsToLower_eq_self c h]

theorem isCurlyQuote_jsToLower (c : Char) : isCurlyQuote (jsToLower c) = isCurlyQuote c := by
  by_cases h : 0x41 ≤ c.toNat ∧ c.toNat ≤ 0x5A
  · rw [isCurlyQuote_false_mid (jsToLower c) (by rw [jsToLower_toNat_of_upper c h]; omega)
      (by rw [jsToLower_toNat_of_upper c h]; omega),
      isCurlyQuote_false_mid c (by omega) (by omega)]
  · rw [jsToLower_eq_self c h]

theorem isWordChar_jsToLower (c : Char) : isWordChar (jsToLower c) = isWordChar c := by
  by_cases h : 0x41 ≤ c.toNat ∧ c.toNat ≤ 0x5A
  · rw [isWordChar_true_letter (jsToLower c)
      (Or.inr (by rw [jsToLower_toNat_of_upper c h]; omega)),
      isWordChar_true_letter c (Or.inl h)]
  · rw [jsToLower_eq_self c h]

theorem jsToLower_idem (c : Char) : jsToLower (jsToLower c) = jsToLower c := by
  by_cases h : 0x41 ≤ c.toNat ∧ c.toNat ≤ 0x5A
  · exact jsToLower_eq_self _ (by rw [jsToLower_toNat_of_upper c h]; omega)
  · simp [jsToLower_eq_self c h]

theorem isAsciiUpper_jsToLower (c : Char) : isAsciiUpper (jsToLower c) = false := by
  by_cases h : 0x41 ≤ c.toNat ∧ c.toNat ≤ 0x5A
  · rw [isAsciiUpper_false_iff]
    rw [jsToLower_toNat_of_upper c h]
    omega
  · rw [jsToLower_eq_self c h, isAsciiUpper_false_iff]
    exact h

theorem space_eq_jsToLower (c : Char) : (jsToLower c = ' ') ↔ (c = ' ') := by
  by_cases h : 0x41 ≤ c.toNat ∧ c.toNat ≤ 0x5A
  · rw [char_eq_iff_toNat, char_eq_iff_toNat, jsToLower_toNat_of_upper c h]
    have hsp : (' ' : Char).toNat = 32 := by decide
    rw [hsp]
    constructor <;> (intro hx; omega)
  · rw [jsToLower_eq_self c h]

/-- Characters equal up to the case fold agree on every character class
the pipeline branches on. -/
theorem class_eq_of_lower_eq (a b : Char) (h : jsToLower a = jsToLower b) :
    isJsSpace a = isJsSpace b ∧ isCtrlChar a = isCtrlChar b ∧
    isCurlyQuote a = isCurlyQuote b ∧ isWordChar a = isWordChar b ∧
    ((a = ' ') ↔ (b = ' ')) := by
  refine ⟨?_, ?_, ?_, ?_, ?_⟩
  · rw [← isJsSpace_jsToLower a, ← isJsSpace_jsToLower b, h]
  · rw [← isCtrlChar_jsToLower a, ← isCtrlChar_jsToLower b, h]
  · rw [← isCurlyQuote_jsToLower a, ← isCurlyQuote_jsToLower b, h]
  · rw [← isWordChar_jsToLower a, ← isWordChar_jsToLower b, h]
  · rw [← space_eq_jsToLower a, ← space_eq_jsToLower b, h]

theorem word_not_ws (c : Char) (h : isWordChar c = true) : isJsSpace c = false := by
  simp only [isWordChar, Bool.or_eq_true, Bool.and_eq_true, decide_eq_true_eq] at h
  exact isJsSpace_false_mid c (by omega) (by omega)

theorem ws_not_word (c : Char) (h : isJsSpace c = true) : isWordChar c = false := by
  by_cases hw : isWordChar c = true
  · rw [word_not_ws c hw] at h; exact absurd h (by simp)
  · exact Bool.not_eq_true _ ▸ (by simpa using hw)

theorem quoteOrSpace_not_word (c : Char) (h : isQuoteOrSpace c = true) :
    isWordChar c = false := by
  simp only [isQuoteOrSpace, Bool.or_eq_true, decide_eq_true_eq] at h
  rcases h with (h | h) | h
  · simp only [isWordChar, Bool.or_eq_false_iff, Bool.and_eq_false_iff,
      decide_eq_false_iff_not]
    omega
  · simp only [isWordChar, Bool.or_eq_false_iff, Bool.and_eq_false_iff,
      decide_eq_false_iff_not]
    omega
  · exact ws_not_word c h

theorem ws_isQuoteOrSpace (c : Char) (h : isJsSpace c = true) : isQuoteOrSpace c = true := by
  simp [isQuoteOrSpace, h]

/-! ## Lemmas: trimming -/

theorem rstrip_eq_nil_iff (p : Char → Bool) (l : Str) :
    rstrip p l = [] ↔ ∀ c ∈ l, p c = true := by
  induction l with
  | nil => simp [rstrip]
  | cons c cs ih =>
    simp only [rstrip]
    by_cases h : rstrip p cs = []
    · simp only [if_pos h]
      by_cases hp : p c = true
      · simp only [if_pos hp, List.mem_cons]
        constructor
        · intro _ x hx
          rcases hx with rfl | hx
          · exact hp
          · exact ih.mp h x hx
        · intro _; trivial
      · simp only [if_neg hp]
        constructor
        · intro hx; exact absurd hx (by simp)
        · intro hall; exact absurd (hall c (by simp)) hp
    · simp only [if_neg h]
      constructor
      · intro hx; exact absurd hx (by simp)
      · intro hall
        exact absurd (ih.mpr (fun x hx => hall x (List.mem_cons_of_mem c hx))) h

theorem rstrip_cons_ne (p : Char → Bool) (c : Char) (cs : Str) (h : rstrip p cs ≠ []) :
    rstrip p (c :: cs) = c :: rstrip p cs := by
  simp only [rstrip]; rw [if_neg h]

theorem rstrip_cons_nil (p : Char → Bool) (c : Char) (cs : Str) (h : rstrip p cs = []) :
    rstrip p (c :: cs) = if p c = true then [] else [c] := by
  simp only [rstrip]; rw [if_pos h]

theorem rstrip_prefix (p : Char → Bool) (l : Str) :
    ∃ t, rstrip p l ++ t = l ∧ ∀ c ∈ t, p c = true := by
  induction l with
  | nil => exact ⟨[], rfl, by simp⟩
  | cons c cs ih =>
    obtain ⟨t, ht, hall⟩ := ih
    simp only [rstrip]
    by_cases h : rstrip p cs = []
    · simp only [if_pos h]
      have hcs : ∀ x ∈ cs, p x = true := (rstrip_eq_nil_iff p cs).mp h
      by_cases hp : p c = true
      · simp only [if_pos hp]
        refine ⟨c :: cs, rfl, ?_⟩
        intro x hx
        rcases List.mem_cons.mp hx with rfl | hx
        · exact hp
        · exact hcs x hx
      · simp only [if_neg hp]
        exact ⟨cs, rfl, hcs⟩
    · simp only [if_neg h]
      exact ⟨t, by rw [List.cons_append, ht], hall⟩

theorem getLast?_cons_ne (x : Char) (xs : Str) (h : xs ≠ []) :
    (x :: xs).getLast? = xs.getLast? := by
  rcases xs with _ | ⟨y, ys⟩
  · exact absurd rfl h
  · exact List.getLast?_cons_cons ..

theorem rstrip_getLast (p : Char → Bool) (l : Str) :
    ∀ c, (rstrip p l).getLast? = some c → p c = false := by
  induction l with
  | nil => intro c hc; exact absurd hc (by simp [rstrip])
  | cons x xs ih =>
    intro c hc
    simp only [rstrip] at hc
    by_cases h : rstrip p xs = []
    · rw [if_pos h] at hc
      by_cases hp : p x = true
      · rw [if_pos hp] at hc; exact absurd hc (by simp)
      · rw [if_neg hp] at hc
        have : x = c := by simpa using hc
        rw [← this]
        exact Bool.not_eq_true _ ▸ (by simpa using hp)
    · rw [if_neg h, getLast?_cons_ne x _ h] at hc
      exact ih c hc

theorem rstrip_eq_self (p : Char → Bool) (l : Str)
    (h : ∀ c, l.getLast? = some c → p c = false) : rstrip p l = l := by
  induction l with
  | nil => rfl
  | cons x xs ih =>
    simp only [rstrip]
    rcases hxs : xs with _ | ⟨y, ys⟩
    · have hx : p x = false := h x (by rw [hxs]; simp)
      subst hxs
      simp [rstrip, hx]
    · rw [← hxs]
      have hxs' : xs ≠ [] := by rw [hxs]; simp
      have hrec : rstrip p xs = xs := by
        apply ih
        intro c hc
        apply h
        rw [getLast?_cons_ne x _ hxs']
        exact hc
      rw [hrec, if_neg hxs']

theorem rstrip_append_all (p : Char → Bool) (x b : Str) (hb : ∀ c ∈ b, p c = true) :
    rstrip p (x ++ b) = rstrip p x := by
  induction x with
  | nil =>
    simp only [List.nil_append]
    exact (rstrip_eq_nil_iff p b).mpr hb
  | cons c cs ih =>
    simp only [List.cons_append, rstrip]
    rw [show cs.append b = cs ++ b from rfl, ih]

theorem dropWhile_append_all (p : Char → Bool) (a m : Str) (ha : ∀ c ∈ a, p c = true) :
    (a ++ m).dropWhile p = m.dropWhile p := by
  induction a with
  | nil => rfl
  | cons c cs ih =>
    simp only [List.cons_append, List.dropWhile_cons, ha c (by simp), if_pos rfl]
    exact ih (fun x hx => ha x (List.mem_cons_of_mem c hx))

theorem dropWhile_absorb (p q : Char → Bool) (himp : ∀ c, q c = true → p c = true)
    (l : Str) : (l.dropWhile q).dropWhile p = l.dropWhile p := by
  induction l with
  | nil => rfl
  | cons c cs ih =>
    by_cases hq : q c = true
    · rw [List.dropWhile_cons, if_pos hq, ih, List.dropWhile_cons, if_pos (himp c hq)]
    · rw [List.dropWhile_cons, if_neg hq]

theorem rstrip_absorb (p q : Char → Bool) (himp : ∀ c, q c = true → p c = true)
    (l : Str) : rstrip p (rstrip q l) = rstrip p l := by
  induction l with
  | nil => rfl
  | cons c cs ih =>
    by_cases hq : rstrip q cs = []
    · have hcs : ∀ x ∈ cs, q x = true := (rstrip_eq_nil_iff q cs).mp hq
      have hcsp : rstrip p cs = [] :=
        (rstrip_eq_nil_iff p cs).mpr (fun x hx => himp x (hcs x hx))
      by_cases hqc : q c = true
      · simp [rstrip, hq, hqc, hcsp, himp c hqc]
      · simp [rstrip, hq, hqc, hcsp]
    · by_cases hp : rstrip p (rstrip q cs) = []
      · have hp' : rstrip p cs = [] := by rw [← ih]; exact hp
        simp [rstrip, hq, hp, hp']
      · have hp' : rstrip p cs ≠ [] := by rw [← ih]; exact hp
        simp [rstrip, hq, hp, hp', ih]

theorem dropWhile_rstrip_comm (p q : Char → Bool) (l : Str) :
    (rstrip p l).dropWhile q = rstrip p (l.dropWhile q) := by
  induction l with
  | nil => rfl
  | cons c cs ih =>
    by_cases h : rstrip p cs = []
    · have hcs : ∀ x ∈ cs, p x = true := (rstrip_eq_nil_iff p cs).mp h
      have h2 : rstrip p (cs.dropWhile q) = [] :=
        (rstrip_eq_nil_iff p _).mpr (fun x hx => hcs x ((List.dropWhile_suffix q).mem hx))
      rw [rstrip_cons_nil p c cs h]
      by_cases hq : q c = true
      · rw [List.dropWhile_cons, if_pos hq, h2]
        by_cases hpc : p c = true
        · rw [if_pos hpc]; rfl
        · rw [if_neg hpc, List.dropWhile_cons, if_pos hq]; rfl
      · rw [List.dropWhile_cons, if_neg hq, rstrip_cons_nil p c cs h]
        by_cases hpc : p c = true
        · rw [if_pos hpc]; rfl
        · rw [if_neg hpc, List.dropWhile_cons, if_neg hq]
    · rw [rstrip_cons_ne p c cs h]
      by_cases hq : q c = true
      · rw [List.dropWhile_cons, if_pos hq, List.dropWhile_cons, if_pos hq, ih]
      · rw [List.dropWhile_cons, if_neg hq, List.dropWhile_cons, if_neg hq,
          rstrip_cons_ne p c cs h]

theorem dropAround_absorb (p q : Char → Bool) (himp : ∀ c, q c = true → p c = true)
    (l : Str) : dropAround p (dropAround q l) = dropAround p l := by
  unfold dropAround
  rw [dropWhile_rstrip_comm q p (l.dropWhile q), dropWhile_absorb p q himp l,
    rstrip_absorb p q himp (l.dropWhile p)]

theorem dropWhile_eq_self_head (p : Char → Bool) (x : Str)
    (h : ∀ b, x.head? = some b → p b = false) : x.dropWhile p = x := by
  cases x with
  | nil => rfl
  | cons b t =>
    rw [List.dropWhile_cons, if_neg]
    rw [h b rfl]
    simp

/-! ## Lemmas: whitespace collapsing -/

theorem collapseGo_congr : ∀ (fuel fuel' : Nat) (l : Str),
    l.length ≤ fuel → l.length ≤ fuel' → collapseGo fuel l = collapseGo fuel' l := by
  intro fuel
  induction fuel with
  | zero =>
    intro fuel' l hl _
    have : l = [] := List.eq_nil_of_length_eq_zero (Nat.le_zero.mp hl)
    subst this
    cases fuel' <;> rfl
  | succ n ih =>
    intro fuel' l hl hl'
    cases l with
    | nil => cases fuel' <;> rfl
    | cons c cs =>
      cases fuel' with
      | zero => simp at hl'
      | succ m =>
        simp only [collapseGo]
        have hcs : cs.length ≤ n := by simp at hl; omega
        have hcs' : cs.length ≤ m := by simp at hl'; omega
        by_cases hc : isJsSpace c = true
        · rw [if_pos hc, if_pos hc]
          congr 1
          exact ih m _ (le_trans (List.dropWhile_suffix _).sublist.length_le hcs)
            (le_trans (List.dropWhile_suffix _).sublist.length_le hcs')
        · rw [if_neg hc, if_neg hc]
          congr 1
          exact ih m cs hcs hcs'

theorem collapseWs_nil : collapseWs [] = [] := rfl

theorem collapseWs_cons_ws (c : Char) (cs : Str) (h : isJsSpace c = true) :
    collapseWs (c :: cs) = ' ' :: collapseWs (cs.dropWhile isJsSpace) := by
  unfold collapseWs
  show collapseGo (cs.length + 1) (c :: cs) = _
  simp only [collapseGo, if_pos h]
  congr 1
  exact collapseGo_congr cs.length _ _
    (List.dropWhile_suffix _).sublist.length_le le_rfl

theorem collapseWs_cons_not (c : Char) (cs : Str) (h : isJsSpace c = false) :
    collapseWs (c :: cs) = c :: collapseWs cs := by
  unfold collapseWs
  show collapseGo (cs.length + 1) (c :: cs) = _
  simp only [collapseGo, if_neg (by simp [h] : ¬isJsSpace c = true)]

/-- The recursion pattern of `collapseWs`, as an induction principle. -/
theorem collapseWs_induct (motive : Str → Prop) (base : motive [])
    (wsCase : ∀ c cs, isJsSpace c = true →
      motive (cs.dropWhile isJsSpace) → motive (c :: cs))
    (chCase : ∀ c cs, isJsSpace c = false → motive cs → motive (c :: cs)) :
    ∀ l, motive l := by
  have H : ∀ n (l : Str), l.length ≤ n → motive l := by
    intro n
    induction n with
    | zero =>
      intro l hl
      have : l = [] := List.eq_nil_of_length_eq_zero (Nat.le_zero.mp hl)
      rw [this]
      exact base
    | succ n ihn =>
      intro l hl
      cases l with
      | nil => exact base
      | cons c cs =>
        have hcs : cs.length ≤ n := by simp at hl; omega
        by_cases hc : isJsSpace c = true
        · exact wsCase c cs hc
            (ihn _ (le_trans (List.dropWhile_suffix _).sublist.length_le hcs))
        · exact chCase c cs (by simpa using hc) (ihn cs hcs)
  exact fun l => H l.length l le_rfl

theorem collapseWs_eq_nil_iff (l : Str) : collapseWs l = [] ↔ l = [] := by
  induction l using collapseWs_induct with
  | base => simp [collapseWs_nil]
  | wsCase c cs h ih => simp [collapseWs_cons_ws c cs h]
  | chCase c cs h ih => simp [collapseWs_cons_not c cs h]

theorem mem_collapseWs (l : Str) (c : Char) (h : c ∈ collapseWs l) :
    c ∈ l ∨ c = ' ' := by
  induction l using collapseWs_induct with
  | base => exact absurd h (by simp [collapseWs_nil])
  | wsCase a cs ha ih =>
    rw [collapseWs_cons_ws a cs ha] at h
    rcases List.mem_cons.mp h with rfl | h
    · exact Or.inr rfl
    · rcases ih h with h | h
      · exact Or.inl (List.mem_cons_of_mem a ((List.dropWhile_suffix isJsSpace).mem h))
      · exact Or.inr h
  | chCase a cs ha ih =>
    rw [collapseWs_cons_not a cs ha] at h
    rcases List.mem_cons.mp h with rfl | h
    · exact Or.inl (by simp)
    · rcases ih h with h | h
      · exact Or.inl (List.mem_cons_of_mem a h)
      · exact Or.inr h

theorem head?_collapseWs_not_ws (y : Str)
    (h : ∀ b, y.head? = some b → isJsSpace b = false) :
    (collapseWs y).head? = y.head? := by
  cases y with
  | nil => rfl
  | cons b t =>
    rw [collapseWs_cons_not b t (h b rfl)]
    rfl

theorem wsCanon_cons_iff (a : Char) (x : Str) :
    wsCanon (a :: x) = true ↔
      ((isJsSpace a = true →
        (a = ' ' ∧ ∀ b, x.head? = some b → isJsSpace b = false)) ∧ wsCanon x = true) := by
  simp only [wsCanon, Bool.and_eq_true, Bool.or_eq_true, Bool.not_eq_true']
  constructor
  · rintro ⟨h1, h2⟩
    refine ⟨?_, h2⟩
    intro hws
    rcases h1 with h1 | ⟨ha, hb⟩
    · exact absurd hws (by simp [h1])
    · refine ⟨by simpa using ha, ?_⟩
      intro b hb'
      rw [hb'] at hb
      simpa using hb
  · rintro ⟨h1, h2⟩
    refine ⟨?_, h2⟩
    by_cases hws : isJsSpace a = true
    · rcases h1 hws with ⟨ha, hb⟩
      refine Or.inr ⟨by simpa using ha, ?_⟩
      rcases hx : x.head? with _ | b
      · simp
      · simpa using hb b hx
    · exact Or.inl (by simpa using hws)

theorem wsCanon_tail (a : Char) (x : Str) (h : wsCanon (a :: x) = true) :
    wsCanon x = true := ((wsCanon_cons_iff a x).mp h).2

theorem collapseWs_eq_self_of_wsCanon (l : Str) (h : wsCanon l = true) :
    collapseWs l = l := by
  induction l with
  | nil => rfl
  | cons a x ih =>
    rcases (wsCanon_cons_iff a x).mp h with ⟨h1, h2⟩
    by_cases hws : isJsSpace a = true
    · rcases h1 hws with ⟨rfl, hhead⟩
      rw [collapseWs_cons_ws _ x hws, dropWhile_eq_self_head _ x hhead, ih h2]
    · rw [collapseWs_cons_not a x (by simpa using hws), ih h2]

theorem wsCanon_collapseWs (l : Str) : wsCanon (collapseWs l) = true := by
  induction l using collapseWs_induct with
  | base => rfl
  | wsCase c cs h ih =>
    rw [collapseWs_cons_ws c cs h]
    rw [wsCanon_cons_iff]
    refine ⟨fun _ => ⟨rfl, ?_⟩, ih⟩
    intro b hb
    rw [head?_collapseWs_not_ws _ ?hd] at hb
    case hd =>
      intro b' hb'
      cases hcs : cs.dropWhile isJsSpace with
      | nil => rw [hcs] at hb'; exact absurd hb' (by simp)
      | cons d t =>
        rw [hcs] at hb'
        have : d = b' := by simpa using hb'
        rw [← this]
        have := List.head?_dropWhile_not isJsSpace cs
        rw [hcs] at this
        simpa using this
    · exact (by
        cases hcs : cs.dropWhile isJsSpace with
        | nil => rw [hcs] at hb; exact absurd hb (by simp)
        | cons d t =>
          rw [hcs] at hb
          have hd : d = b := by simpa using hb
          have := List.head?_dropWhile_not isJsSpace cs
          rw [hcs] at this
          rw [← hd]
          simpa using this)
  | chCase c cs h ih =>
    rw [collapseWs_cons_not c cs h, wsCanon_cons_iff]
    exact ⟨fun hws => absurd hws (by simp [h]), ih⟩

theorem wsCanon_of_append_left (x t : Str) (h : wsCanon (x ++ t) = true) :
    wsCanon x = true := by
  induction x with
  | nil => rfl
  | cons a x' ih =>
    rw [List.cons_append] at h
    rcases (wsCanon_cons_iff a (x' ++ t)).mp h with ⟨h1, h2⟩
    rw [wsCanon_cons_iff]
    refine ⟨?_, ih h2⟩
    intro hws
    rcases h1 hws with ⟨ha, hhead⟩
    refine ⟨ha, ?_⟩
    intro b hb
    apply hhead
    cases x' with
    | nil => exact absurd hb (by simp)
    | cons d t' =>
      have : d = b := by simpa using hb
      rw [List.cons_append]
      simp [this]

theorem wsCanon_of_append_right (t y : Str) (h : wsCanon (t ++ y) = true) :
    wsCanon y = true := by
  induction t with
  | nil => exact h
  | cons a t' ih =>
    rw [List.cons_append] at h
    exact ih (wsCanon_tail _ _ h)

theorem getLast?_mem' (l : Str) (a : Char) (h : l.getLast? = some a) : a ∈ l := by
  rw [List.getLast?_eq_head?_reverse] at h
  have := List.mem_of_mem_head? h
  simpa using this

theorem dropWhile_collapseWs_comm (q : Char → Bool)
    (hws : ∀ c, isJsSpace c = true → q c = true) (l : Str) :
    (collapseWs l).dropWhile q = collapseWs (l.dropWhile q) := by
  induction l using collapseWs_induct with
  | base => rfl
  | wsCase c cs h ih =>
    have hq' : q ' ' = true := hws ' ' (by decide)
    rw [collapseWs_cons_ws c cs h]
    conv_lhs => rw [List.dropWhile_cons]
    rw [if_pos hq', ih, dropWhile_absorb q isJsSpace hws cs]
    rw [List.dropWhile_cons, if_pos (hws c h)]
  | chCase c cs h ih =>
    rw [collapseWs_cons_not c cs h]
    by_cases hqc : q c = true
    · conv_lhs => rw [List.dropWhile_cons]
      rw [if_pos hqc, ih, List.dropWhile_cons, if_pos hqc]
    · conv_lhs => rw [List.dropWhile_cons]
      rw [if_neg hqc, List.dropWhile_cons, if_neg hqc, collapseWs_cons_not c cs h]

theorem rstrip_collapseWs_comm (q : Char → Bool)
    (hws : ∀ c, isJsSpace c = true → q c = true) (l : Str) :
    rstrip q (collapseWs l) = collapseWs (rstrip q l) := by
  induction l using collapseWs_induct with
  | base => rfl
  | wsCase c cs h ih =>
    rw [collapseWs_cons_ws c cs h]
    have hqc : q c = true := hws c h
    have hq' : q ' ' = true := hws ' ' (by decide)
    have hcomm : rstrip q (cs.dropWhile isJsSpace) = (rstrip q cs).dropWhile isJsSpace :=
      (dropWhile_rstrip_comm q isJsSpace cs).symm
    by_cases hnil : rstrip q cs = []
    · have hx : rstrip q (collapseWs (cs.dropWhile isJsSpace)) = [] := by
        rw [ih, hcomm, hnil]
        rfl
      rw [rstrip_cons_nil q ' ' _ hx, if_pos hq',
        rstrip_cons_nil q c cs hnil, if_pos hqc]
      rfl
    · have hxne : rstrip q (collapseWs (cs.dropWhile isJsSpace)) ≠ [] := by
        rw [ih, hcomm, Ne, collapseWs_eq_nil_iff]
        intro hdw
        have hall : ∀ x ∈ rstrip q cs, isJsSpace x = true :=
          List.dropWhile_eq_nil_iff.mp hdw
        rcases hlast : (rstrip q cs).getLast? with _ | b
        · exact hnil (List.getLast?_eq_none_iff.mp hlast)
        · have hbq : q b = false := rstrip_getLast q cs b hlast
          have hbmem : b ∈ rstrip q cs := getLast?_mem' _ b hlast
          have := hws b (hall b hbmem)
          rw [this] at hbq
          exact absurd hbq (by simp)
      rw [rstrip_cons_ne q ' ' _ hxne, ih, hcomm,
        rstrip_cons_ne q c cs hnil, collapseWs_cons_ws c _ h]
  | chCase c cs h ih =>
    have hc : isJsSpace c = false := h
    rw [collapseWs_cons_not c cs hc]
    by_cases hnil : rstrip q cs = []
    · have hx : rstrip q (collapseWs cs) = [] := by
        rw [ih, hnil]
        rfl
      rw [rstrip_cons_nil q c _ hx, rstrip_cons_nil q c cs hnil]
      by_cases hqc : q c = true
      · rw [if_pos hqc]
        rfl
      · rw [if_neg hqc, collapseWs_cons_not c [] hc]
        rfl
    · have hx : rstrip q (collapseWs cs) ≠ [] := by
        rw [ih, Ne, collapseWs_eq_nil_iff]
        exact hnil
      rw [rstrip_cons_ne q c _ hx, ih, rstrip_cons_ne q c cs hnil,
        collapseWs_cons_not c _ hc]

theorem dropAround_collapseWs_comm (q : Char → Bool)
    (hws : ∀ c, isJsSpace c = true → q c = true) (l : Str) :
    dropAround q (collapseWs l) = collapseWs (dropAround q l) := by
  unfold dropAround
  rw [dropWhile_collapseWs_comm q hws l, rstrip_collapseWs_comm q hws (l.dropWhile q)]

theorem wsCanon_map_lower (l : Str) (h : wsCanon l = true) :
    wsCanon (l.map jsToLower) = true := by
  induction l with
  | nil => rfl
  | cons a x ih =>
    rcases (wsCanon_cons_iff a x).mp h with ⟨h1, h2⟩
    rw [List.map_cons, wsCanon_cons_iff]
    refine ⟨?_, ih h2⟩
    intro hws
    rw [isJsSpace_jsToLower a] at hws
    rcases h1 hws with ⟨ha, hhead⟩
    refine ⟨(space_eq_jsToLower a).mpr ha, ?_⟩
    intro b hb
    rw [List.head?_map] at hb
    cases hx : x.head? with
    | none => rw [hx] at hb; exact absurd hb (by simp)
    | some d =>
      rw [hx] at hb
      have : jsToLower d = b := by simpa using hb
      rw [← this, isJsSpace_jsToLower d]
      exact hhead d hx

/-! ## Lemmas: the term normaliser -/

theorem ws_imp_nw (c : Char) (h : isJsSpace c = true) : (!isWordChar c) = true := by
  rw [ws_not_word c h]; rfl

theorem qws_imp_nw (c : Char) (h : isQuoteOrSpace c = true) : (!isWordChar c) = true := by
  rw [quoteOrSpace_not_word c h]; rfl

/-- `normalizeTerm` strips one maximal run of non-word characters from
each end of the whitespace-collapsed, control-free text, then
lowercases: the three end-trims (`trim`, quote/space strip, non-word
strip) telescope into the outermost one. -/
theorem normalizeTerm_core (s : Str) :
    normalizeTerm s =
      jsToLowerStr (dropAround (fun c => !isWordChar c) (collapseWs (preClean s))) := by
  unfold normalizeTerm cleanText jsTrim
  congr 1
  rw [dropAround_absorb isQuoteOrSpace isJsSpace ws_isQuoteOrSpace,
    dropAround_absorb (fun c => !isWordChar c) isQuoteOrSpace qws_imp_nw]

theorem mem_preClean (s : Str) (c : Char) (h : c ∈ preClean s) :
    isCtrlChar c = false ∧ isCurlyQuote c = false := by
  unfold preClean at h
  rcases List.mem_map.mp h with ⟨a, ha, rfl⟩
  have hctrl : isCtrlChar a = false := by
    have := List.of_mem_filter ha
    simpa using this
  unfold mapCurly
  by_cases hc : isCurlyQuote a = true
  · rw [if_pos hc]
    exact ⟨by decide, by decide⟩
  · rw [if_neg hc]
    exact ⟨hctrl, by simpa using hc⟩

theorem preClean_eq_self (l : Str)
    (h : ∀ c ∈ l, isCtrlChar c = false ∧ isCurlyQuote c = false) : preClean l = l := by
  unfold preClean
  rw [List.filter_eq_self.mpr (fun a ha => by simp [(h a ha).1])]
  have hmap : ∀ c ∈ l, mapCurly c = c := by
    intro c hc
    unfold mapCurly
    rw [if_neg (by simp [(h c hc).2])]
  calc l.map mapCurly = l.map id := List.map_congr_left hmap
    _ = l := l.map_id

theorem mem_dropAround (p : Char → Bool) (l : Str) (c : Char) (h : c ∈ dropAround p l) :
    c ∈ l := by
  unfold dropAround at h
  obtain ⟨t, ht, _⟩ := rstrip_prefix p (l.dropWhile p)
  have h2 : c ∈ l.dropWhile p := by
    rw [← ht]
    exact List.mem_append_left t h
  exact (List.dropWhile_suffix p).mem h2

theorem wsCanon_dropAround (p : Char → Bool) (l : Str) (h : wsCanon l = true) :
    wsCanon (dropAround p l) = true := by
  unfold dropAround
  obtain ⟨t, ht, _⟩ := rstrip_prefix p (l.dropWhile p)
  apply wsCanon_of_append_left _ t
  rw [ht]
  obtain ⟨u, hu⟩ := List.dropWhile_suffix p (l := l)
  exact wsCanon_of_append_right u _ (by rw [hu]; exact h)

theorem cleanText_chars (s : Str) (c : Char) (h : c ∈ cleanText s) :
    isCtrlChar c = false ∧ isCurlyQuote c = false := by
  unfold cleanText jsTrim at h
  have h1 : c ∈ collapseWs (preClean s) := mem_dropAround _ _ c h
  rcases mem_collapseWs _ c h1 with h2 | rfl
  · exact mem_preClean s c h2
  · exact ⟨by decide, by decide⟩

theorem wsCanon_cleanText (s : Str) : wsCanon (cleanText s) = true := by
  unfold cleanText jsTrim
  exact wsCanon_dropAround _ _ (wsCanon_collapseWs _)

theorem normalizeTerm_chars (s : Str) (c : Char) (h : c ∈ normalizeTerm s) :
    isCtrlChar c = false ∧ isCurlyQuote c = false := by
  rw [normalizeTerm_core] at h
  unfold jsToLowerStr at h
  rcases List.mem_map.mp h with ⟨a, ha, rfl⟩
  have ha' : a ∈ collapseWs (preClean s) := mem_dropAround _ _ a ha
  have hgood : isCtrlChar a = false ∧ isCurlyQuote a = false := by
    rcases mem_collapseWs _ a ha' with h1 | rfl
    · exact mem_preClean s a h1
    · exact ⟨by decide, by decide⟩
  exact ⟨by rw [isCtrlChar_jsToLower]; exact hgood.1,
    by rw [isCurlyQuote_jsToLower]; exact hgood.2⟩

theorem wsCanon_normalizeTerm (s : Str) : wsCanon (normalizeTerm s) = true := by
  rw [normalizeTerm_core]
  exact wsCanon_map_lower _ (wsCanon_dropAround _ _ (wsCanon_collapseWs _))

theorem head?_append_left (x t : Str) (a : Char) (h : x.head? = some a) :
    (x ++ t).head? = some a := by
  cases x with
  | nil => exact absurd h (by simp)
  | cons b bs => simpa using h

theorem normalizeTerm_head_word (s : Str) :
    ∀ c, (normalizeTerm s).head? = some c → isWordChar c = true := by
  intro c hc
  rw [normalizeTerm_core] at hc
  unfold jsToLowerStr at hc
  rw [List.head?_map] at hc
  rcases hx : (dropAround (fun c => !isWordChar c) (collapseWs (preClean s))).head?
    with _ | a
  · rw [hx] at hc; exact absurd hc (by simp)
  · rw [hx] at hc
    have hca : jsToLower a = c := by simpa using hc
    unfold dropAround at hx
    obtain ⟨t, ht, _⟩ := rstrip_prefix (fun c => !isWordChar c)
      ((collapseWs (preClean s)).dropWhile (fun c => !isWordChar c))
    have hx2 : ((collapseWs (preClean s)).dropWhile (fun c => !isWordChar c)).head? =
        some a := by
      rw [← ht]
      cases hz : rstrip (fun c => !isWordChar c)
          ((collapseWs (preClean s)).dropWhile (fun c => !isWordChar c)) with
      | nil => rw [hz] at hx; exact absurd hx (by simp)
      | cons z zs =>
        rw [hz] at hx
        have : z = a := by simpa using hx
        simp [this]
    have := List.head?_dropWhile_not (fun c => !isWordChar c) (collapseWs (preClean s))
    rw [hx2] at this
    have ha : isWordChar a = true := by simpa using this
    rw [← hca, isWordChar_jsToLower]
    exact ha

theorem normalizeTerm_last_word (s : Str) :
    ∀ c, (normalizeTerm s).getLast? = some c → isWordChar c = true := by
  intro c hc
  rw [normalizeTerm_core] at hc
  unfold jsToLowerStr at hc
  rw [List.getLast?_map] at hc
  rcases hx : (dropAround (fun c => !isWordChar c) (collapseWs (preClean s))).getLast?
    with _ | a
  · rw [hx] at hc; exact absurd hc (by simp)
  · rw [hx] at hc
    have hca : jsToLower a = c := by simpa using hc
    unfold dropAround at hx
    have := rstrip_getLast (fun c => !isWordChar c)
      ((collapseWs (preClean s)).dropWhile (fun c => !isWordChar c)) a hx
    have ha : isWordChar a = true := by simpa using this
    rw [← hca, isWordChar_jsToLower]
    exact ha

theorem normalizeTerm_no_upper (s : Str) :
    ∀ c ∈ normalizeTerm s, isAsciiUpper c = false := by
  intro c hc
  rw [normalizeTerm_core] at hc
  unfold jsToLowerStr at hc
  rcases List.mem_map.mp hc with ⟨a, _, rfl⟩
  exact isAsciiUpper_jsToLower a

theorem preClean_normalizeTerm (s : Str) : preClean (normalizeTerm s) = normalizeTerm s :=
  preClean_eq_self _ (fun c hc => normalizeTerm_chars s c hc)

theorem collapseWs_normalizeTerm (s : Str) :
    collapseWs (normalizeTerm s) = normalizeTerm s :=
  collapseWs_eq_self_of_wsCanon _ (wsCanon_normalizeTerm s)

theorem dropAround_eq_self_of_word_ends (p : Char → Bool) (l : Str)
    (hh : ∀ c, l.head? = some c → p c = false)
    (hl : ∀ c, l.getLast? = some c → p c = false) :
    dropAround p l = l := by
  unfold dropAround
  rw [dropWhile_eq_self_head p l hh]
  exact rstrip_eq_self p l hl

theorem dropAround_nw_normalizeTerm (s : Str) :
    dropAround (fun c => !isWordChar c) (normalizeTerm s) = normalizeTerm s := by
  apply dropAround_eq_self_of_word_ends
  · intro c hc
    simp [normalizeTerm_head_word s c hc]
  · intro c hc
    simp [normalizeTerm_last_word s c hc]

theorem jsToLowerStr_normalizeTerm (s : Str) :
    jsToLowerStr (normalizeTerm s) = normalizeTerm s := by
  conv_lhs => rw [normalizeTerm_core]
  conv_rhs => rw [normalizeTerm_core]
  unfold jsToLowerStr
  rw [List.map_map]
  apply List.map_congr_left
  intro a _
  exact jsToLower_idem a

/-- `normalizeTerm` is idempotent. -/
theorem normalizeTerm_idem (s : Str) :
    normalizeTerm (normalizeTerm s) = normalizeTerm s := by
  rw [normalizeTerm_core (normalizeTerm s), preClean_normalizeTerm,
    collapseWs_normalizeTerm, dropAround_nw_normalizeTerm, jsToLowerStr_normalizeTerm]

/-- `cleanText` leaves a normalised term unchanged. -/
theorem cleanText_normalizeTerm (s : Str) :
    cleanText (normalizeTerm s) = normalizeTerm s := by
  unfold cleanText
  rw [preClean_normalizeTerm, collapseWs_normalizeTerm]
  unfold jsTrim
  apply dropAround_eq_self_of_word_ends
  · intro c hc
    exact word_not_ws c (normalizeTerm_head_word s c hc)
  · intro c hc
    exact word_not_ws c (normalizeTerm_last_word s c hc)

/-- Cleaning first does not change the normalised key. -/
theorem normalizeTerm_cleanText (s : Str) :
    normalizeTerm (cleanText s) = normalizeTerm s := by
  rw [normalizeTerm_core (cleanText s)]
  rw [preClean_eq_self _ (fun c hc => cleanText_chars s c hc)]
  rw [collapseWs_eq_self_of_wsCanon _ (wsCanon_cleanText s)]
  rw [show cleanText s = dropAround isJsSpace (collapseWs (preClean s)) from rfl]
  rw [dropAround_absorb _ isJsSpace ws_imp_nw]
  rw [← normalizeTerm_core s]

theorem dropAround_junk (p : Char → Bool) (a m b : Str)
    (ha : ∀ c ∈ a, p c = true) (hb : ∀ c ∈ b, p c = true) :
    dropAround p (a ++ m ++ b) = dropAround p m := by
  unfold dropAround
  rw [List.append_assoc, dropWhile_append_all p a (m ++ b) ha,
    ← dropWhile_rstrip_comm p p (m ++ b), rstrip_append_all p m b hb,
    dropWhile_rstrip_comm p p m]

theorem mem_preClean_nonword (j : Str) (hj : ∀ c ∈ j, isWordChar c = false) :
    ∀ c ∈ preClean j, isWordChar c = false := by
  intro c hc
  unfold preClean at hc
  rcases List.mem_map.mp hc with ⟨a, ha, rfl⟩
  have ha' : a ∈ j := List.mem_of_mem_filter ha
  unfold mapCurly
  by_cases hcu : isCurlyQuote a = true
  · rw [if_pos hcu]; decide
  · rw [if_neg hcu]; exact hj a ha'

theorem preClean_append (a b : Str) : preClean (a ++ b) = preClean a ++ preClean b := by
  unfold preClean
  rw [List.filter_append, List.map_append]

/-- Surrounding a term with non-word junk (whitespace, quotes,
punctuation) does not change its normalised key. -/
theorem normalizeTerm_junk (j1 v j2 : Str)
    (h1 : ∀ c ∈ j1, isWordChar c = false) (h2 : ∀ c ∈ j2, isWordChar c = false) :
    normalizeTerm (j1 ++ v ++ j2) = normalizeTerm v := by
  rw [normalizeTerm_core, normalizeTerm_core v]
  congr 1
  rw [preClean_append, preClean_append,
    dropAround_collapseWs_comm _ ws_imp_nw, dropAround_collapseWs_comm _ ws_imp_nw]
  congr 1
  exact dropAround_junk _ _ _ _
    (fun c hc => by simpa using (mem_preClean_nonword j1 h1 c hc))
    (fun c hc => by simpa using (mem_preClean_nonword j2 h2 c hc))

/-! ## Lemmas: case-insensitivity of the key -/

theorem mapCurly_jsToLower_comm (c : Char) :
    mapCurly (jsToLower c) = jsToLower (mapCurly c) := by
  by_cases hcu : isCurlyQuote c = true
  · have hbig : ¬(0x41 ≤ c.toNat ∧ c.toNat ≤ 0x5A) := by
      simp only [isCurlyQuote, Bool.or_eq_true, decide_eq_true_eq] at hcu
      omega
    rw [jsToLower_eq_self c hbig]
    unfold mapCurly
    rw [if_pos hcu]
    decide
  · unfold mapCurly
    rw [if_neg hcu, if_neg (by rw [isCurlyQuote_jsToLower]; simpa using hcu)]

theorem preClean_jsToLowerStr (s : Str) :
    preClean (jsToLowerStr s) = jsToLowerStr (preClean s) := by
  unfold preClean jsToLowerStr
  rw [List.filter_map]
  rw [List.filter_congr (fun c _ => by
    show (!isCtrlChar (jsToLower c)) = !isCtrlChar c
    rw [isCtrlChar_jsToLower])]
  rw [List.map_map, List.map_map]
  exact List.map_congr_left (fun a _ => mapCurly_jsToLower_comm a)

theorem dropWhile_map_comm (p : Char → Bool) (f : Char → Char)
    (hp : ∀ c, p (f c) = p c) (l : Str) :
    (l.map f).dropWhile p = (l.dropWhile p).map f := by
  induction l with
  | nil => rfl
  | cons c cs ih =>
    rw [List.map_cons, List.dropWhile_cons, List.dropWhile_cons, hp c]
    by_cases hc : p c = true
    · rw [if_pos hc, if_pos hc, ih]
    · rw [if_neg hc, if_neg hc, List.map_cons]

theorem rstrip_map_comm (p : Char → Bool) (f : Char → Char)
    (hp : ∀ c, p (f c) = p c) (l : Str) :
    rstrip p (l.map f) = (rstrip p l).map f := by
  induction l with
  | nil => rfl
  | cons c cs ih =>
    rw [List.map_cons]
    by_cases h : rstrip p cs = []
    · have hm : rstrip p (cs.map f) = [] := by rw [ih, h]; rfl
      rw [rstrip_cons_nil p (f c) _ hm, rstrip_cons_nil p c cs h, hp c]
      by_cases hc : p c = true
      · rw [if_pos hc, if_pos hc]; rfl
      · rw [if_neg hc, if_neg hc]; rfl
    · have hm : rstrip p (cs.map f) ≠ [] := by
        rw [ih]
        simpa using h
      rw [rstrip_cons_ne p (f c) _ hm, rstrip_cons_ne p c cs h, ih, List.map_cons]

theorem collapseWs_map_lower (l : Str) :
    collapseWs (l.map jsToLower) = (collapseWs l).map jsToLower := by
  induction l using collapseWs_induct with
  | base => rfl
  | wsCase c cs h ih =>
    rw [List.map_cons, collapseWs_cons_ws _ _ (by rw [isJsSpace_jsToLower]; exact h),
      collapseWs_cons_ws c cs h, List.map_cons,
      dropWhile_map_comm isJsSpace jsToLower isJsSpace_jsToLower cs, ih]
    have : jsToLower ' ' = ' ' := by decide
    rw [this]
  | chCase c cs h ih =>
    rw [List.map_cons, collapseWs_cons_not _ _ (by rw [isJsSpace_jsToLower]; exact h),
      collapseWs_cons_not c cs h, List.map_cons, ih]

theorem dropAround_map_lower (p : Char → Bool) (hp : ∀ c, p (jsToLower c) = p c) (l : Str) :
    dropAround p (l.map jsToLower) = (dropAround p l).map jsToLower := by
  unfold dropAround
  rw [dropWhile_map_comm p jsToLower hp l, rstrip_map_comm p jsToLower hp]

/-- Lowercasing the input first does not change the normalised key. -/
theorem normalizeTerm_jsToLowerStr (s : Str) :
    normalizeTerm (jsToLowerStr s) = normalizeTerm s := by
  rw [normalizeTerm_core, normalizeTerm_core s]
  have hnw : ∀ c, (!isWordChar (jsToLower c)) = !isWordChar c := by
    intro c; rw [isWordChar_jsToLower]
  rw [preClean_jsToLowerStr]
  show jsToLowerStr (dropAround _ (collapseWs ((preClean s).map jsToLower))) = _
  rw [collapseWs_map_lower (preClean s),
    dropAround_map_lower _ hnw (collapseWs (preClean s))]
  unfold jsToLowerStr
  rw [List.map_map]
  exact List.map_congr_left (fun a _ => jsToLower_idem a)

theorem caseVariant_iff (u w : Str) :
    caseVariant u w = true ↔ jsToLowerStr u = jsToLowerStr w := by
  unfold jsToLowerStr
  induction u generalizing w with
  | nil =>
    cases w with
    | nil => simp [caseVariant]
    | cons b bs => simp [caseVariant]
  | cons a as' ih =>
    cases w with
    | nil => simp [caseVariant]
    | cons b bs =>
      simp only [caseVariant, Bool.and_eq_true, beq_iff_eq, List.map_cons,
        List.cons.injEq]
      rw [ih bs]

/-- Changing the letter case of a term does not change its normalised key. -/
theorem normalizeTerm_caseVariant (v t : Str) (h : caseVariant v t = true) :
    normalizeTerm v = normalizeTerm t := by
  have hl : jsToLowerStr v = jsToLowerStr t := (caseVariant_iff v t).mp h
  rw [← normalizeTerm_jsToLowerStr v, hl, normalizeTerm_jsToLowerStr t]

/-! ## Lemmas: the direct-definition matcher and the table fold -/

theorem findG3_shape (rem : Str) : ∀ acc out, findG3 acc rem = some out →
    ∃ ext, out = acc ++ ext ∧ ext.head? = rem.head? ∧ ext ≠ [] := by
  induction rem with
  | nil => intro acc out h; exact absurd h (by simp [findG3])
  | cons c rest ih =>
    intro acc out h
    simp only [findG3] at h
    by_cases hlt : isLineTerm c = true
    · rw [if_pos hlt] at h; exact absurd h (by simp)
    · rw [if_neg hlt] at h
      by_cases htail : wsPunctWsTail rest = true
      · rw [if_pos htail] at h
        have hout : acc ++ [c] = out := by simpa using h
        exact ⟨[c], hout.symm, rfl, by simp⟩
      · rw [if_neg htail] at h
        obtain ⟨ext, hout, hh, hne⟩ := ih (acc ++ [c]) out h
        refine ⟨c :: ext, ?_, rfl, by simp⟩
        rw [hout, List.append_assoc]
        rfl

theorem afterVerbDirect_head (r2 g3 : Str) (h : afterVerbDirect r2 = some g3) :
    ∃ c, g3.head? = some c ∧ isJsSpace c = false := by
  unfold afterVerbDirect at h
  by_cases hws : (r2.takeWhile isJsSpace).isEmpty = true
  · rw [if_pos hws] at h; exact absurd h (by simp)
  · rw [if_neg hws] at h
    obtain ⟨ext, hout, hh, hne⟩ := findG3_shape _ [] g3 h
    rw [List.nil_append] at hout
    subst hout
    rcases hx : (r2.dropWhile isJsSpace).head? with _ | c
    · rw [hx] at hh
      exact absurd (List.head?_eq_none_iff.mp hh) hne
    · refine ⟨c, by rw [hh, hx], ?_⟩
      have := List.head?_dropWhile_not isJsSpace r2
      rw [hx] at this
      simpa using this

theorem tryDirectVerbs_some (term : Str) : ∀ vs r pr,
    tryDirectVerbs term vs r = some pr →
    pr.1 = term ∧ ∃ r2, afterVerbDirect r2 = some pr.2 := by
  intro vs
  induction vs with
  | nil => intro r pr h; exact absurd h (by simp [tryDirectVerbs])
  | cons v vs' ih =>
    intro r pr h
    simp only [tryDirectVerbs] at h
    by_cases hci : ciStartsWith r v = true
    · rw [if_pos hci] at h
      cases hav : afterVerbDirect (r.drop v.length) with
      | some g3 =>
        rw [hav] at h
        have : (term, g3) = pr := by simpa using h
        subst this
        exact ⟨rfl, ⟨r.drop v.length, hav⟩⟩
      | none =>
        rw [hav] at h
        exact ih r pr h
    · rw [if_neg hci] at h
      exact ih r pr h

theorem matchDirectRe_some (t term g3 : Str) (h : matchDirectRe t = some (term, g3)) :
    (∃ c, g3.head? = some c ∧ isJsSpace c = false) ∧ t ≠ [] := by
  constructor
  · cases t with
    | nil => exact absurd h (by simp [matchDirectRe])
    | cons c rest =>
      unfold matchDirectRe at h
      dsimp only [] at h
      repeat' split at h
      all_goals try exact Option.noConfusion h
      all_goals
        obtain ⟨h1, r2, hav⟩ := tryDirectVerbs_some _ _ _ _ h
      all_goals exact afterVerbDirect_head r2 g3 hav
  · intro hnil
    rw [hnil] at h
    exact absurd h (by simp [matchDirectRe])

theorem jsTrim_ne_nil_of_head (g3 : Str) (c : Char) (hh : g3.head? = some c)
    (hc : isJsSpace c = false) : jsTrim g3 ≠ [] := by
  cases g3 with
  | nil => exact absurd hh (by simp)
  | cons a rest =>
    have hac : a = c := by simpa using hh
    subst hac
    unfold jsTrim dropAround
    rw [List.dropWhile_cons, if_neg (by simp [hc])]
    rw [Ne, rstrip_eq_nil_iff]
    intro hall
    have := hall a (by simp)
    rw [hc] at this
    exact absurd this (by simp)

theorem extractStep_direct_set (acc : DefTables) (raw term g3 : Str)
    (h : matchDirectRe (cleanText raw) = some (term, g3))
    (hp : normalizeTerm term ≠ protoKey) :
    (extractStep acc raw).direct (normalizeTerm term) = some (jsTrim g3) := by
  have hne : cleanText raw ≠ [] := (matchDirectRe_some _ _ _ h).2
  unfold extractStep
  simp only [if_neg hne, h]
  unfold directAssign
  rw [if_neg hp]
  simp [tblUpdate]

theorem extractStep_direct_preserve (acc : DefTables) (raw k : Str)
    (h : directRedefines raw k = false) :
    (extractStep acc raw).direct k = acc.direct k := by
  unfold directRedefines at h
  unfold extractStep
  by_cases hnil : cleanText raw = []
  · simp only [if_pos hnil]
  · simp only [if_neg hnil]
    cases hm : matchDirectRe (cleanText raw) with
    | some pr =>
      obtain ⟨term, g3⟩ := pr
      rw [hm] at h
      have hk : normalizeTerm term ≠ k := by simpa using h
      unfold directAssign
      dsimp only
      by_cases hp : normalizeTerm term = protoKey
      · rw [if_pos hp]
      · rw [if_neg hp]
        simp only [tblUpdate]
        rw [if_neg (fun hkk => hk hkk.symm)]
    | none =>
      cases hx : matchXrefRe (cleanText raw) with
      | some pr =>
        obtain ⟨t2, c2⟩ := pr
        unfold xrefAssign
        dsimp only
        by_cases hp : normalizeTerm t2 = protoKey
        · rw [if_pos hp]
        · rw [if_neg hp]
      | none => rfl

theorem foldl_direct_preserve (post : List Str) (k : Str)
    (h : ∀ p ∈ post, directRedefines p k = false) :
    ∀ acc : DefTables, (post.foldl extractStep acc).direct k = acc.direct k := by
  induction post with
  | nil => intro acc; rfl
  | cons p rest ih =>
    intro acc
    rw [List.foldl_cons]
    rw [ih (fun q hq => h q (List.mem_cons_of_mem p hq))]
    exact extractStep_direct_preserve acc p k (h p (by simp))

theorem extractDefs_append (l1 l2 : List Str) :
    extractDefsFromParagraphs (l1 ++ l2) =
      l2.foldl extractStep (extractDefsFromParagraphs l1) := by
  unfold extractDefsFromParagraphs
  exact List.foldl_append ..

/-- Every key ever written into either table is a `normalizeTerm` image. -/
theorem foldl_keys_norm (ps : List Str) (k : Str) :
    ∀ acc : DefTables,
    ((acc.direct k ≠ none ∨ acc.xref k ≠ none) → ∃ t, k = normalizeTerm t) →
    (((ps.foldl extractStep acc).direct k ≠ none ∨
      (ps.foldl extractStep acc).xref k ≠ none) → ∃ t, k = normalizeTerm t) := by
  induction ps with
  | nil => intro acc hacc; exact hacc
  | cons p rest ih =>
    intro acc hacc
    rw [List.foldl_cons]
    apply ih
    intro hstep
    unfold extractStep at hstep
    by_cases hnil : cleanText p = []
    · rw [if_pos hnil] at hstep
      exact hacc hstep
    · rw [if_neg hnil] at hstep
      cases hm : matchDirectRe (cleanText p) with
      | some pr =>
        obtain ⟨term, g3⟩ := pr
        rw [hm] at hstep
        unfold directAssign at hstep
        dsimp only at hstep
        by_cases hp : normalizeTerm term = protoKey
        · rw [if_pos hp] at hstep
          exact hacc hstep
        · rw [if_neg hp] at hstep
          simp only [tblUpdate] at hstep
          by_cases hk : k = normalizeTerm term
          · exact ⟨term, hk⟩
          · rcases hstep with hd | hx
            · rw [if_neg hk] at hd
              exact hacc (Or.inl hd)
            · exact hacc (Or.inr hx)
      | none =>
        rw [hm] at hstep
        cases hx : matchXrefRe (cleanText p) with
        | some pr =>
          obtain ⟨term, cref⟩ := pr
          rw [hx] at hstep
          unfold xrefAssign at hstep
          dsimp only at hstep
          by_cases hp : normalizeTerm term = protoKey
          · rw [if_pos hp] at hstep
            exact hacc hstep
          · rw [if_neg hp] at hstep
            simp only [tblUpdate] at hstep
            by_cases hk : k = normalizeTerm term
            · exact ⟨term, hk⟩
            · rcases hstep with hd | hxx
              · exact hacc (Or.inl hd)
              · rw [if_neg hk] at hxx
                exact hacc (Or.inr hxx)
        | none =>
          rw [hx] at hstep
          exact hacc hstep

/-! ## Lemmas: the resolver's candidate list -/

theorem strEndsWith_iff (s suf : Str) :
    strEndsWith s suf = true ↔ ∃ pre, s = pre ++ suf := by
  unfold strEndsWith
  rw [List.isSuffixOf_iff_suffix]
  constructor
  · rintro ⟨pre, rfl⟩; exact ⟨pre, rfl⟩
  · rintro ⟨pre, rfl⟩; exact ⟨pre, rfl⟩

theorem candidates_eq (k : Str) (hk : k ≠ []) :
    jsUnique (([k, singularize k]).filter (fun s => s ≠ [])) =
      if singularize k = [] ∨ singularize k = k then [k] else [k, singularize k] := by
  by_cases h1 : singularize k = []
  · simp [jsUnique, jsUniqueGo, hk, h1]
  · by_cases h2 : singularize k = k
    · simp [jsUnique, jsUniqueGo, hk, h1, h2]
    · simp [jsUnique, jsUniqueGo, hk, h1, h2]

/-- The only inherited `Object.prototype` property names that are
`normalizeTerm` fixed points — hence the only ones a probe key can
ever equal — are "constructor" and "__proto__" (the others contain an
uppercase letter). -/
theorem protoKeys_norm_fixed (k : Str) (hmem : k ∈ objProtoKeys)
    (hfix : normalizeTerm k = k) :
    k = "constructor".data ∨ k = protoKey := by
  simp only [objProtoKeys, List.mem_cons, List.mem_nil_iff, or_false] at hmem
  rcases hmem with rfl | rfl | rfl | rfl | rfl | rfl | rfl | rfl | rfl | rfl | rfl | rfl
  · exact Or.inl rfl
  · exact absurd hfix (by decide)
  · exact absurd hfix (by decide)
  · exact absurd hfix (by decide)
  · exact absurd hfix (by decide)
  · exact absurd hfix (by decide)
  · exact absurd hfix (by decide)
  · exact absurd hfix (by decide)
  · exact absurd hfix (by decide)
  · exact absurd hfix (by decide)
  · exact absurd hfix (by decide)
  · exact Or.inr rfl

/-- Every character of `singularize k` is a character of `k` or the
appended 'y'. -/
theorem mem_singularize (k : Str) (c : Char) (hc : c ∈ singularize k) :
    c ∈ k ∨ c = 'y' := by
  unfold singularize at hc
  by_cases h0 : k = []
  · rw [if_pos h0] at hc
    exact Or.inl hc
  · rw [if_neg h0] at hc
    by_cases h1 : strEndsWith k ['i', 'e', 's'] = true
    · rw [if_pos h1] at hc
      rcases List.mem_append.mp hc with h | h
      · exact Or.inl (List.take_subset _ _ h)
      · exact Or.inr (by simpa using h)
    · rw [if_neg h1] at hc
      by_cases h2 : strEndsWith k ['s', 'e', 's'] = true
      · rw [if_pos h2] at hc
        exact Or.inl (List.take_subset _ _ hc)
      · rw [if_neg h2] at hc
        by_cases h3 : (strEndsWith k ['s'] && !strEndsWith k ['s', 's']) = true
        · rw [if_pos h3] at hc
          exact Or.inl (List.take_subset _ _ hc)
        · rw [if_neg h3] at hc
          exact Or.inl hc

/-- `singularize` preserves the absence of uppercase ASCII letters. -/
theorem singularize_no_upper (k : Str) (h : ∀ c ∈ k, isAsciiUpper c = false) :
    ∀ c ∈ singularize k, isAsciiUpper c = false := by
  intro c hc
  rcases mem_singularize k c hc with h1 | rfl
  · exact h c h1
  · decide

/-! ## The claims -/

/-- C8: `normalizeTerm` is idempotent: for every string `x`,
`normalizeTerm (normalizeTerm x) = normalizeTerm x`. -/
theorem C8_normalizeTerm_idempotent (x : Str) :
    normalizeTerm (normalizeTerm x) = normalizeTerm x :=
  normalizeTerm_idem x

/-- C7: `singularize` replaces a trailing "ies" by "y"; otherwise it
removes exactly the trailing "es" of a word ending in "ses", leaving a
stem that ends in "s"; otherwise it drops a trailing "s" unless the word
ends in "ss"; otherwise it returns the key unchanged. In particular
`singularize "liabilities" = "liability"` and
`singularize "expenses" = "expens"`. -/
theorem C7_singularize_spec (key : Str) :
    ((∀ stem, key = stem ++ "ies".data → singularize key = stem ++ "y".data) ∧
     ((¬∃ stem, key = stem ++ "ies".data) →
       ∀ stem, key = stem ++ "ses".data → singularize key = stem ++ "s".data) ∧
     ((¬∃ stem, key = stem ++ "ies".data) → (¬∃ stem, key = stem ++ "ses".data) →
       ∀ stem, key = stem ++ "s".data → (¬∃ s2, key = s2 ++ "ss".data) →
       singularize key = stem) ∧
     ((¬∃ stem, key = stem ++ "ies".data) → (¬∃ stem, key = stem ++ "ses".data) →
       (¬∃ stem, key = stem ++ "s".data ∧ ¬∃ s2, key = s2 ++ "ss".data) →
       singularize key = key)) ∧
    singularize "liabilities".data = "liability".data ∧
    singularize "expenses".data = "expens".data := by
  have hies_false : ∀ key : Str, (¬∃ stem, key = stem ++ "ies".data) →
      strEndsWith key ['i', 'e', 's'] = false := by
    intro key hies
    exact Bool.eq_false_iff.mpr (fun h => hies ((strEndsWith_iff key _).mp h))
  have hses_false : ∀ key : Str, (¬∃ stem, key = stem ++ "ses".data) →
      strEndsWith key ['s', 'e', 's'] = false := by
    intro key hses
    exact Bool.eq_false_iff.mpr (fun h => hses ((strEndsWith_iff key _).mp h))
  refine ⟨⟨?_, ?_, ?_, ?_⟩, by decide, by decide⟩
  · intro stem hstem
    subst hstem
    unfold singularize
    rw [if_neg (by simp), if_pos ((strEndsWith_iff _ _).mpr ⟨stem, rfl⟩)]
    have hlen : (stem ++ "ies".data).length - 3 = stem.length := by
      rw [List.length_append, show ("ies".data : Str).length = 3 from rfl]
      omega
    rw [hlen, show ("ies".data : Str) = ['i', 'e', 's'] from rfl, List.take_left]
  · intro hies stem hstem
    subst hstem
    unfold singularize
    rw [if_neg (by simp), if_neg (by simp [hies_false _ hies]),
      if_pos ((strEndsWith_iff _ _).mpr ⟨stem, rfl⟩)]
    have hsplit : stem ++ "ses".data = (stem ++ ['s']) ++ ['e', 's'] := by simp
    have hlen : (stem ++ "ses".data).length - 2 = (stem ++ ['s']).length := by
      rw [List.length_append, List.length_append,
        show ("ses".data : Str).length = 3 from rfl,
        show (['s'] : Str).length = 1 from rfl]
      omega
    rw [hlen, hsplit, List.take_left]
  · intro hies hses stem hstem hss
    subst hstem
    unfold singularize
    have hssF : strEndsWith (stem ++ "s".data) ['s', 's'] = false :=
      Bool.eq_false_iff.mpr (fun h => hss ((strEndsWith_iff _ _).mp h))
    rw [if_neg (by simp), if_neg (by simp [hies_false _ hies]),
      if_neg (by simp [hses_false _ hses]),
      if_pos (by
        rw [show strEndsWith (stem ++ "s".data) ['s'] = true from
          (strEndsWith_iff _ _).mpr ⟨stem, rfl⟩, hssF]
        rfl)]
    have hlen : (stem ++ "s".data).length - 1 = stem.length := by
      rw [List.length_append, show ("s".data : Str).length = 1 from rfl]
      omega
    rw [hlen, show ("s".data : Str) = ['s'] from rfl, List.take_left]
  · intro hies hses h3
    by_cases hnil : key = []
    · rw [hnil]
      rfl
    · unfold singularize
      rw [if_neg hnil, if_neg (by simp [hies_false _ hies]),
        if_neg (by simp [hses_false _ hses]), if_neg ?cond]
      case cond =>
        intro hC
        simp only [Bool.and_eq_true, Bool.not_eq_true'] at hC
        obtain ⟨hs, hss⟩ := hC
        obtain ⟨stem, hkey⟩ := (strEndsWith_iff key _).mp hs
        refine h3 ⟨stem, hkey, ?_⟩
        rintro ⟨s2, hkey2⟩
        rw [(strEndsWith_iff key ['s', 's']).mpr ⟨s2, hkey2⟩] at hss
        exact absurd hss (by simp)

/-- C7 witness: the theorem applied at `"liabilities"`. -/
theorem C7_singularize_spec_w :
    singularize "liabilities".data = "liabilit".data ++ "y".data :=
  (C7_singularize_spec "liabilities".data).1.1 "liabilit".data (by decide)

/-- C9 counterexample: over the empty document neither table has any
own key, yet selecting "Constructor" does not reach the "no definition
found" outcome — `GLOSSARY.direct["constructor"]` is truthy via the
inherited `Object.prototype.constructor`, so the direct loop hits. -/
theorem C9_counterexample :
    (buildGlossaryTables []).direct "constructor".data = none ∧
    (buildGlossaryTables []).xref "constructor".data = none ∧
    (buildGlossaryTables []).direct (singularize "constructor".data) = none ∧
    (buildGlossaryTables []).xref (singularize "constructor".data) = none ∧
    resolveSelection (buildGlossaryTables []) "Constructor".data =
      LookupResult.foundInherited "Constructor".data "constructor".data ∧
    resolveSelection (buildGlossaryTables []) "Constructor".data ≠
      LookupResult.notFound "Constructor".data := by
  refine ⟨rfl, rfl, rfl, rfl, by decide, by decide⟩

/-- C9 (amended): for every glossary and non-empty selected key such
that neither the key nor its singular variant is an own key of either
table NOR one of the property names inherited from `Object.prototype`
(such as "constructor" or "__proto__", which are truthy on an empty
table), the lookup terminates normally in the "no definition found"
outcome. -/
theorem C9_amended_not_found (g : Glossary) (sel k : Str)
    (hkdef : normalizeTerm (cleanText sel) = k) (hk : k ≠ [])
    (hp1 : k ∉ objProtoKeys) (hp2 : singularize k ∉ objProtoKeys)
    (hd1 : g.direct k = none) (hd2 : g.direct (singularize k) = none)
    (hx1 : g.xref k = none) (hx2 : g.xref (singularize k) = none) :
    resolveSelection g sel = LookupResult.notFound (cleanText sel) := by
  have hnu : ∀ c ∈ k, isAsciiUpper c = false := by
    rw [← hkdef]
    exact normalizeTerm_no_upper (cleanText sel)
  have hnus : ∀ c ∈ singularize k, isAsciiUpper c = false :=
    singularize_no_upper k hnu
  have hpk : k ≠ protoKey := by
    intro h
    exact hp1 (by rw [h]; decide)
  have hpks : singularize k ≠ protoKey := by
    intro h
    exact hp2 (by rw [h]; decide)
  have hck : k ≠ "clauseRef".data := by
    intro h
    subst h
    exact absurd (hnu 'R' (by decide)) (by decide)
  have hrk : k ≠ "rawLine".data := by
    intro h
    subst h
    exact absurd (hnu 'L' (by decide)) (by decide)
  have hcks : singularize k ≠ "clauseRef".data := by
    intro h
    exact absurd (hnus 'R' (by rw [h]; decide)) (by decide)
  have hrks : singularize k ≠ "rawLine".data := by
    intro h
    exact absurd (hnus 'L' (by rw [h]; decide)) (by decide)
  have hxr1 : xrefRead g k = XrefVal.missing := by
    unfold xrefRead
    rw [hx1]
    cases g.xrefChain with
    | some e =>
      dsimp only
      rw [if_neg hck, if_neg hrk, if_neg hpk, if_neg hp1]
    | none =>
      dsimp only
      rw [if_neg hpk, if_neg hp1]
  have hxr2 : xrefRead g (singularize k) = XrefVal.missing := by
    unfold xrefRead
    rw [hx2]
    cases g.xrefChain with
    | some e =>
      dsimp only
      rw [if_neg hcks, if_neg hrks, if_neg hpks, if_neg hp2]
    | none =>
      dsimp only
      rw [if_neg hpks, if_neg hp2]
  unfold resolveSelection
  dsimp only
  rw [hkdef, if_neg hk, candidates_eq k hk]
  by_cases hcond : singularize k = [] ∨ singularize k = k
  · rw [if_pos hcond]
    simp [firstDirectHit, firstXrefHit, hd1, hp1, hxr1, xrefTruthy]
  · rw [if_neg hcond]
    simp [firstDirectHit, firstXrefHit, hd1, hd2, hp1, hp2, hxr1, hxr2, xrefTruthy]

/-- C9 (amended) witness: the theorem applied to the empty-document
glossary and the selection "Foo". -/
theorem C9_amended_not_found_w :
    resolveSelection (buildGlossaryTables []) "Foo".data =
      LookupResult.notFound (cleanText "Foo".data) :=
  C9_amended_not_found (buildGlossaryTables []) "Foo".data "foo".data
    (by decide) (by decide) (by decide) (by decide) rfl rfl rfl rfl

/-- C2 counterexample: the claim "no TermKey is present in both tables"
fails once two different paragraphs are involved: a paragraph defining
"Foo" directly and a later paragraph cross-referencing "Foo" leave the
key "foo" present in both mappings. -/
theorem C2_counterexample :
    ((extractDefsFromParagraphs
        ["\"Foo\" means something good here.".data,
         "\"Foo\" has the meaning given in clause 1.2.".data]).direct "foo".data ≠ none) ∧
    ((extractDefsFromParagraphs
        ["\"Foo\" means something good here.".data,
         "\"Foo\" has the meaning given in clause 1.2.".data]).xref "foo".data ≠ none) := by
  decide

/-- C2 (amended): each single paragraph updates at most one of the two
mappings, the direct pattern being tried first (a direct match leaves
the cross-reference table untouched); distinct paragraphs may still
place the same TermKey in both tables. -/
theorem C2_amended_per_paragraph (acc : DefTables) (raw : Str) :
    ((extractStep acc raw).direct = acc.direct ∨ (extractStep acc raw).xref = acc.xref) ∧
    ((matchDirectRe (cleanText raw)).isSome = true →
      (extractStep acc raw).xref = acc.xref) := by
  constructor
  · unfold extractStep
    by_cases hnil : cleanText raw = []
    · simp only [if_pos hnil]
      exact Or.inl trivial
    · simp only [if_neg hnil]
      cases hm : matchDirectRe (cleanText raw) with
      | some pr =>
        obtain ⟨term, g3⟩ := pr
        refine Or.inr ?_
        unfold directAssign
        dsimp only
        by_cases hp : normalizeTerm term = protoKey
        · rw [if_pos hp]
        · rw [if_neg hp]
      | none =>
        cases hx : matchXrefRe (cleanText raw) with
        | some pr =>
          obtain ⟨t2, c2⟩ := pr
          refine Or.inl ?_
          unfold xrefAssign
          dsimp only
          by_cases hp : normalizeTerm t2 = protoKey
          · rw [if_pos hp]
          · rw [if_neg hp]
        | none => exact Or.inl rfl
  · intro hsome
    unfold extractStep
    by_cases hnil : cleanText raw = []
    · have : matchDirectRe (cleanText raw) = none := by rw [hnil]; rfl
      rw [this] at hsome
      exact absurd hsome (by simp)
    · simp only [if_neg hnil]
      cases hm : matchDirectRe (cleanText raw) with
      | some pr =>
        obtain ⟨term, g3⟩ := pr
        unfold directAssign
        dsimp only
        by_cases hp : normalizeTerm term = protoKey
        · rw [if_pos hp]
        · rw [if_neg hp]
      | none =>
        rw [hm] at hsome
        exact absurd hsome (by simp)

/-- C2 (amended) witness: a direct-matching paragraph leaves the
cross-reference table unchanged. -/
theorem C2_amended_per_paragraph_w :
    (extractStep emptyTables "\"Foo\" means something good here.".data).xref =
      emptyTables.xref :=
  (C2_amended_per_paragraph emptyTables _).2 (by decide)

theorem rstrip_length_le (p : Char → Bool) (l : Str) : (rstrip p l).length ≤ l.length := by
  obtain ⟨t, ht, _⟩ := rstrip_prefix p l
  have := congrArg List.length ht
  rw [List.length_append] at this
  omega

theorem jsTrim_length_le (l : Str) : (jsTrim l).length ≤ l.length := by
  unfold jsTrim dropAround
  exact le_trans (rstrip_length_le _ _) (List.dropWhile_suffix _).sublist.length_le

set_option maxHeartbeats 4000000 in
/-- C3 counterexample: a paragraph whose extracted phrase has length 269
(more than 260) produces a returned definition of length 259, not
exactly 260: the 259-character prefix ends in a space that the trim
removes before the ellipsis is appended. -/
theorem C3_counterexample :
    extractMeaningFromParentheticalSentence
        (cleanText (List.replicate 258 'a' ++ " ".data ++ List.replicate 10 'b' ++
          " (the Clawback Amount)".data))
        "clawback amount".data =
      some (List.replicate 258 'a' ++ " ".data ++ List.replicate 10 'b') ∧
    (List.replicate 258 'a' ++ " ".data ++ List.replicate 10 'b' : Str).length = 269 ∧
    findEmbeddedDefinitionParagraphAndExtract
        [List.replicate 258 'a' ++ " ".data ++ List.replicate 10 'b' ++
          " (the Clawback Amount)".data]
        "clawback amount".data = some (List.replicate 258 'a' ++ ['…']) ∧
    (List.replicate 258 'a' ++ ['…'] : Str).length = 259 := by
  refine ⟨by decide, by decide, by decide, by decide⟩

/-- C3 (amended): every definition returned by the embedded-definition
search is the 260-truncation of some paragraph's extracted phrase:
phrases of length at most 260 are returned unchanged, longer ones
become the trimmed 259-character prefix with an ellipsis appended (so
they end in the ellipsis), and every returned definition has length at
most 260 (but not always exactly 260). -/
theorem C3_amended_truncation (ps : List Str) (key r : Str)
    (h : findEmbeddedDefinitionParagraphAndExtract ps key = some r) :
    (∃ p phrase, p ∈ ps ∧
      extractMeaningFromParentheticalSentence (cleanText p) key = some phrase ∧
      phrase ≠ [] ∧ r = truncate phrase 260 ∧
      (phrase.length ≤ 260 → r = phrase) ∧
      (260 < phrase.length →
        r = jsTrim (phrase.take 259) ++ ['…'] ∧ r.getLast? = some '…')) ∧
    r.length ≤ 260 := by
  induction ps with
  | nil => exact absurd h (by simp [findEmbeddedDefinitionParagraphAndExtract])
  | cons raw rest ih =>
    unfold findEmbeddedDefinitionParagraphAndExtract at h
    by_cases hpar : ((cleanText raw).contains '(' && (cleanText raw).contains ')') = true
    · rw [if_pos hpar] at h
      cases hm : extractMeaningFromParentheticalSentence (cleanText raw) key with
      | some e =>
        simp only [hm] at h
        by_cases he : e = []
        · rw [if_pos he] at h
          obtain ⟨⟨p, phrase, hp, h1, h2, h3, h4, h5⟩, hlen⟩ := ih h
          exact ⟨⟨p, phrase, List.mem_cons_of_mem _ hp, h1, h2, h3, h4, h5⟩, hlen⟩
        · rw [if_neg he] at h
          have hr : r = truncate e 260 := by
            have := h
            simpa using this.symm
          refine ⟨⟨raw, e, by simp, hm, he, hr, ?_, ?_⟩, ?_⟩
          · intro hle
            rw [hr]
            unfold truncate
            rw [if_neg he, if_pos hle]
          · intro hgt
            constructor
            · rw [hr]
              unfold truncate
              rw [if_neg he, if_neg (by omega)]
            · rw [hr]
              unfold truncate
              rw [if_neg he, if_neg (by omega)]
              exact List.getLast?_concat ..
          · rw [hr]
            unfold truncate
            rw [if_neg he]
            by_cases hle : e.length ≤ 260
            · rw [if_pos hle]
              exact hle
            · rw [if_neg hle, List.length_append]
              have h259 : (260 : Nat) - 1 = 259 := rfl
              rw [h259]
              have h1 : (jsTrim (e.take 259)).length ≤ (e.take 259).length :=
                jsTrim_length_le _
              have h2 : (e.take 259).length ≤ 259 := by
                rw [List.length_take]
                omega
              simp only [List.length_cons, List.length_nil]
              omega
      | none =>
        simp only [hm] at h
        obtain ⟨⟨p, phrase, hp, h1, h2, h3, h4, h5⟩, hlen⟩ := ih h
        exact ⟨⟨p, phrase, List.mem_cons_of_mem _ hp, h1, h2, h3, h4, h5⟩, hlen⟩
    · rw [if_neg hpar] at h
      obtain ⟨⟨p, phrase, hp, h1, h2, h3, h4, h5⟩, hlen⟩ := ih h
      exact ⟨⟨p, phrase, List.mem_cons_of_mem _ hp, h1, h2, h3, h4, h5⟩, hlen⟩

/-- C3 (amended) witness: a short extraction passes through unchanged
and respects the length bound. -/
theorem C3_amended_truncation_w :
    (findEmbeddedDefinitionParagraphAndExtract
        ["Short. Fee (the Clawback Amount)".data] "clawback amount".data =
      some "Fee".data) ∧ ("Fee".data : Str).length ≤ 260 :=
  ⟨by decide,
    (C3_amended_truncation ["Short. Fee (the Clawback Amount)".data]
      "clawback amount".data "Fee".data (by decide)).2⟩

/-- C4 counterexample: the extraction value returned for a matching
parenthetical can be shorter than 15 characters — the last-sentence
fallback has no length threshold, so "Fee" (3 characters) is returned. -/
theorem C4_counterexample :
    extractMeaningFromParentheticalSentence "Short. Fee (the Clawback Amount)".data
      "clawback amount".data = some "Fee".data ∧
    ("Fee".data : Str).length < 15 := by
  exact ⟨by decide, by decide⟩

/-- C5 counterexample: once a parenthetical matches the term key, a null
extraction ends the whole paragraph scan — the loop does not continue
with the next matching parenthetical of the same paragraph. Here the
first parenthetical matches but yields null (nothing precedes it), the
second parenthetical of the same paragraph would yield
"described stuff here", yet the function returns null. -/
theorem C5_counterexample :
    scanParens []
        "(the Clawback Amount) and stuff (described stuff here being the Clawback Amount)".data =
      [([], "the Clawback Amount".data),
       ("(the Clawback Amount) and stuff ".data,
        "described stuff here being the Clawback Amount".data)] ∧
    extractFromParentheticalItself
        "described stuff here being the Clawback Amount".data
        "clawback amount".data = some "described stuff here".data ∧
    extractMeaningFromParentheticalSentence
        "(the Clawback Amount) and stuff (described stuff here being the Clawback Amount)".data
        "clawback amount".data = none := by
  refine ⟨by decide, by decide, by decide⟩

set_option maxHeartbeats 1600000 in
/-- C5 (amended): non-matching parentheticals are skipped within a
paragraph, but a matching parenthetical's null extraction abandons the
paragraph: scanning then continues with the subsequent paragraphs
only. -/
theorem C5_amended_continuation (raw : Str) (rest : List Str) (key : Str)
    (h : extractMeaningFromParentheticalSentence (cleanText raw) key = none) :
    findEmbeddedDefinitionParagraphAndExtract (raw :: rest) key =
      findEmbeddedDefinitionParagraphAndExtract rest key ∧
    (∀ beforeSlice insideRaw parens,
      (strContains (normalizeTerm (cleanText insideRaw)) key ||
        (!(singularize key).isEmpty &&
          strContains (normalizeTerm (cleanText insideRaw)) (singularize key))) = false →
      tryParens key ((beforeSlice, insideRaw) :: parens) = tryParens key parens) := by
  constructor
  · have heq : findEmbeddedDefinitionParagraphAndExtract (raw :: rest) key =
        (if ((cleanText raw).contains '(' && (cleanText raw).contains ')') = true then
          match extractMeaningFromParentheticalSentence (cleanText raw) key with
          | some e =>
            if e = [] then findEmbeddedDefinitionParagraphAndExtract rest key
            else some (truncate e 260)
          | none => findEmbeddedDefinitionParagraphAndExtract rest key
        else findEmbeddedDefinitionParagraphAndExtract rest key) := rfl
    rw [heq]
    by_cases hpar : ((cleanText raw).contains '(' && (cleanText raw).contains ')') = true
    · rw [if_pos hpar, h]
    · rw [if_neg hpar]
  · intro beforeSlice insideRaw parens hm
    conv_lhs => unfold tryParens
    dsimp only
    rw [if_neg (by simp [hm])]

set_option maxHeartbeats 1600000 in
/-- C5 (amended) witness: the counterexample paragraph is abandoned, and
scanning an empty remainder finds nothing. -/
theorem C5_amended_continuation_w :
    findEmbeddedDefinitionParagraphAndExtract
        ["(the Clawback Amount) and stuff (described stuff here being the Clawback Amount)".data]
        "clawback amount".data =
      findEmbeddedDefinitionParagraphAndExtract [] "clawback amount".data :=
  (C5_amended_continuation _ [] "clawback amount".data (by decide)).1

theorem firstTruthy_cons_some_ne (s : Str) (os : List (Option Str)) (h : s ≠ []) :
    firstTruthy (some s :: os) = some s := by
  simp [firstTruthy, h]

theorem firstTruthy_cons_some_nil (os : List (Option Str)) :
    firstTruthy (some [] :: os) = firstTruthy os := by
  simp [firstTruthy]

theorem firstTruthy_cons_none (os : List (Option Str)) :
    firstTruthy (none :: os) = firstTruthy os := by
  simp [firstTruthy]

theorem stage4_eq (before : Str) :
    (match lastSentence before with
     | some s => if s = [] then none else some s
     | none => (none : Option Str)) = firstTruthy [lastSentence before] := by
  cases h : lastSentence before with
  | some s =>
    by_cases hs : s = [] <;> simp [firstTruthy, hs]
  | none => simp [firstTruthy]

theorem stage3_eq (before : Str) :
    (if !(extractNearestPhrase before).isEmpty &&
        decide (20 ≤ (extractNearestPhrase before).length) then
      some (extractNearestPhrase before)
     else
      match lastSentence before with
      | some s => if s = [] then none else some s
      | none => none) =
    firstTruthy
      [(if 20 ≤ (extractNearestPhrase before).length
        then some (extractNearestPhrase before) else none),
       lastSentence before] := by
  by_cases hp : 20 ≤ (extractNearestPhrase before).length
  · have hpne : extractNearestPhrase before ≠ [] := by
      intro h0
      rw [h0] at hp
      simp at hp
    rw [if_pos (by simp [hp, hpne]), if_pos hp, firstTruthy_cons_some_ne _ _ hpne]
  · rw [if_neg (by simp [hp]), if_neg hp, firstTruthy_cons_none]
    exact stage4_eq before

theorem stage2_eq (inside before : Str) :
    (if amountLeadTest inside then
      match extractAmountsReferent before with
      | some w =>
        if w = [] then
          (if !(extractNearestPhrase before).isEmpty &&
              decide (20 ≤ (extractNearestPhrase before).length) then
            some (extractNearestPhrase before)
           else
            match lastSentence before with
            | some s => if s = [] then none else some s
            | none => none)
        else some w
      | none =>
        (if !(extractNearestPhrase before).isEmpty &&
            decide (20 ≤ (extractNearestPhrase before).length) then
          some (extractNearestPhrase before)
         else
          match lastSentence before with
          | some s => if s = [] then none else some s
          | none => none)
     else
      (if !(extractNearestPhrase before).isEmpty &&
          decide (20 ≤ (extractNearestPhrase before).length) then
        some (extractNearestPhrase before)
       else
        match lastSentence before with
        | some s => if s = [] then none else some s
        | none => none)) =
    firstTruthy
      [(if amountLeadTest inside then extractAmountsReferent before else none),
       (if 20 ≤ (extractNearestPhrase before).length
        then some (extractNearestPhrase before) else none),
       lastSentence before] := by
  by_cases hamt : amountLeadTest inside = true
  · rw [if_pos hamt, if_pos hamt]
    cases ha : extractAmountsReferent before with
    | some w =>
      dsimp only
      by_cases hw : w = []
      · subst hw
        rw [if_pos rfl, firstTruthy_cons_some_nil]
        exact stage3_eq before
      · rw [if_neg hw, firstTruthy_cons_some_ne _ _ hw]
    | none =>
      dsimp only
      rw [firstTruthy_cons_none]
      exact stage3_eq before
  · rw [if_neg hamt, if_neg hamt, firstTruthy_cons_none]
    exact stage3_eq before

/-- Any successful parenthetical-internal extraction has at least 15
characters (both internal patterns are guarded by the threshold). -/
theorem extractFromParen_min15 (inside termKey r : Str)
    (h : extractFromParentheticalItself inside termKey = some r) : 15 ≤ r.length := by
  unfold extractFromParentheticalItself at h
  dsimp only at h
  split at h
  · next c heq =>
    injection h with hh
    subst hh
    repeat' split at heq
    all_goals try exact Option.noConfusion heq
    all_goals injection heq with hh2
    all_goals subst hh2
    all_goals assumption
  · repeat' split at h
    all_goals try exact Option.noConfusion h
    all_goals injection h with hh
    all_goals subst hh
    all_goals assumption

set_option maxHeartbeats 3200000 in
/-- C4 (amended): for a matching parenthetical, the heuristics run in
the fixed order (a) parenthetical-internal, (b) amount-referent
(attempted only when the interior starts with an amount phrase), (b')
nearest-phrase, (c) last-sentence, and the returned value is the first
non-null, non-empty candidate; only stage (a) enforces a 15-character
minimum (stage (b') uses 20, stages (b) and (c) have none, so shorter
strings can be returned). -/
theorem C4_amended_chain (termKey inside beforeSlice : Str) :
    (attemptExtraction termKey inside beforeSlice =
      extractionChain termKey inside beforeSlice) ∧
    (∀ r, extractFromParentheticalItself inside termKey = some r → 15 ≤ r.length) := by
  constructor
  · unfold attemptExtraction extractionChain
    dsimp only
    rcases hf : extractFromParentheticalItself inside termKey with _ | fp
    · simp only [hf, firstTruthy_cons_none]
      exact stage2_eq inside (cleanText (jsTrim beforeSlice))
    · by_cases hfe : fp = []
      · subst hfe
        simp only [hf, if_pos rfl, firstTruthy_cons_some_nil]
        exact stage2_eq inside (cleanText (jsTrim beforeSlice))
      · simp only [hf, if_neg hfe, firstTruthy_cons_some_ne _ _ hfe]
  · intro r hr
    exact extractFromParen_min15 inside termKey r hr

/-- C4 (amended) witness: the chain equality at a concrete matching
parenthetical whose internal pattern succeeds with a 15-character
extraction. -/
theorem C4_amended_chain_w :
    (attemptExtraction "clawback amount".data
        "described stuff being the Clawback Amount".data [] =
      extractionChain "clawback amount".data
        "described stuff being the Clawback Amount".data []) ∧
    15 ≤ ("described stuff".data : Str).length :=
  ⟨(C4_amended_chain "clawback amount".data
      "described stuff being the Clawback Amount".data []).1,
   (C4_amended_chain "clawback amount".data
      "described stuff being the Clawback Amount".data []).2
     "described stuff".data (by decide)⟩

set_option maxHeartbeats 1600000 in
/-- C6 counterexample: with "Fees" directly defined (stored TermKey
"fees"), resolving the key itself succeeds, but resolving "fee" — the
other member of the singular–plural pair, since
`singularize "fees" = "fee"` — reports "no definition found":
pluralization only maps the probe towards the stored key, never the
stored key towards its singular. -/
theorem C6_counterexample :
    singularize "fees".data = "fee".data ∧
    resolveSelection
        (buildGlossaryTables ["\"Fees\" means the agreed service charges.".data])
        "Fees".data =
      LookupResult.found "Fees".data "the agreed service charges".data ∧
    resolveSelection
        (buildGlossaryTables ["\"Fees\" means the agreed service charges.".data])
        "fee".data =
      LookupResult.notFound "fee".data := by
  refine ⟨by decide, by decide, by decide⟩

/-- C6 (amended): a non-empty normalised direct key with a non-empty
stored definition resolves to that definition, and so does every
non-empty normalised probe key whose singularization is the stored key
and which is not itself a usable direct key: pluralization works from
the probe towards the stored key only. -/
theorem C6_amended_pluralization (g : Glossary) (k v : Str)
    (hk : normalizeTerm k = k) (hkne : k ≠ [])
    (hv : g.direct k = some v) (hvne : v ≠ []) :
    resolveSelection g k = LookupResult.found k v ∧
    (∀ k', normalizeTerm k' = k' → k' ≠ [] → singularize k' = k →
      (∀ w, g.direct k' = some w → w = []) →
      resolveSelection g k' = LookupResult.found k' v) := by
  have hcleank : cleanText k = k := by
    conv_lhs => rw [← hk]
    rw [cleanText_normalizeTerm, hk]
  constructor
  · unfold resolveSelection
    dsimp only
    rw [hcleank, hk, if_neg hkne, candidates_eq k hkne]
    by_cases hcond : singularize k = [] ∨ singularize k = k
    · rw [if_pos hcond]
      simp [firstDirectHit, hv, hvne]
    · rw [if_neg hcond]
      simp [firstDirectHit, hv, hvne]
  · intro k' hk' hk'ne hsing hnot
    have hcleank' : cleanText k' = k' := by
      conv_lhs => rw [← hk']
      rw [cleanText_normalizeTerm, hk']
    unfold resolveSelection
    dsimp only
    rw [hcleank', hk', if_neg hk'ne, candidates_eq k' hk'ne, hsing]
    by_cases hcond : k = [] ∨ k = k'
    · exfalso
      rcases hcond with h0 | h0
      · exact hkne h0
      · subst h0
        exact hvne (hnot v hv)
    · rw [if_neg hcond]
      cases hd : g.direct k' with
      | some w =>
        have hw : w = [] := hnot w hd
        subst hw
        simp [firstDirectHit, hd, hv, hvne]
      | none =>
        have hk'p : k' ∉ objProtoKeys := by
          intro hmem
          rcases protoKeys_norm_fixed k' hmem hk' with h0 | h0
          · have hkeq : k = k' := by
              rw [← hsing, h0]
              decide
            rw [← hkeq] at hd
            rw [hv] at hd
            exact Option.noConfusion hd
          · have hkeq : k = k' := by
              rw [← hsing, h0]
              decide
            rw [← hkeq] at hd
            rw [hv] at hd
            exact Option.noConfusion hd
        simp [firstDirectHit, hd, hk'p, hv, hvne]

set_option maxHeartbeats 1600000 in
/-- C6 (amended) witness: "party" is stored; both "party" and the plural
probe "parties" resolve to its definition. -/
theorem C6_amended_pluralization_w :
    resolveSelection
        (buildGlossaryTables ["\"Party\" means each signatory entity.".data])
        "party".data =
      LookupResult.found "party".data "each signatory entity".data ∧
    resolveSelection
        (buildGlossaryTables ["\"Party\" means each signatory entity.".data])
        "parties".data =
      LookupResult.found "parties".data "each signatory entity".data := by
  refine ⟨(C6_amended_pluralization _ "party".data "each signatory entity".data
      (by decide) (by decide) (by decide) (by decide)).1,
    (C6_amended_pluralization _ "party".data "each signatory entity".data
      (by decide) (by decide) (by decide) (by decide)).2 "parties".data
      (by decide) (by decide) (by decide) ?_⟩
  intro w hw
  rw [show (buildGlossaryTables
      ["\"Party\" means each signatory entity.".data]).direct "parties".data = none
    from by decide] at hw
  exact Option.noConfusion hw

set_option maxHeartbeats 1600000 in
/-- C1 counterexample: the first paragraph matches the direct pattern
with captured definition "the agreed charge", the selection " FEE " is
the quoted term "Fee" in changed letter case with surrounding
whitespace, yet resolution returns the later paragraph's definition
"the revised charge" (last write wins), not the first paragraph's. -/
theorem C1_counterexample :
    matchDirectRe (cleanText "\"Fee\" means the agreed charge.".data) =
      some ("Fee".data, "the agreed charge".data) ∧
    (" FEE ".data : Str) = [' '] ++ "FEE".data ++ [' '] ∧
    caseVariant "FEE".data "Fee".data = true ∧
    resolveSelection
        (buildGlossaryTables
          ["\"Fee\" means the agreed charge.".data,
           "\"Fee\" means the revised charge.".data]) " FEE ".data =
      LookupResult.found "FEE".data "the revised charge".data ∧
    ("the revised charge".data : Str) ≠ "the agreed charge".data := by
  refine ⟨by decide, by decide, by decide, by decide, by decide⟩

/-- C1 (amended): if a paragraph matches the direct-definition pattern
for a non-empty key other than "__proto__" (whose write is swallowed
by the inherited setter) and no later paragraph matches the direct
pattern with the same key, then resolving a selection that is the
quoted term in any letter case with surrounding whitespace returns
that paragraph's captured definition text, whitespace-trimmed (the
trailing `.`/`;`/`:` is already excluded by the capture). -/
theorem C1_amended_direct_resolution
    (pre post : List Str) (p term g3 : Str)
    (hmatch : matchDirectRe (cleanText p) = some (term, g3))
    (hkne : normalizeTerm term ≠ [])
    (hproto : normalizeTerm term ≠ protoKey)
    (hpost : ∀ q ∈ post, directRedefines q (normalizeTerm term) = false)
    (sel w1 v w2 : Str)
    (hsel : sel = w1 ++ v ++ w2)
    (hw1 : ∀ c ∈ w1, isJsSpace c = true) (hw2 : ∀ c ∈ w2, isJsSpace c = true)
    (hv : caseVariant v term = true) :
    resolveSelection (buildGlossaryTables (pre ++ p :: post)) sel =
      LookupResult.found (cleanText sel) (jsTrim g3) := by
  have htbl : (extractDefsFromParagraphs (pre ++ p :: post)).direct (normalizeTerm term) =
      some (jsTrim g3) := by
    rw [show pre ++ p :: post = (pre ++ [p]) ++ post from by simp]
    rw [extractDefs_append, foldl_direct_preserve post _ hpost, extractDefs_append]
    show (extractStep (extractDefsFromParagraphs pre) p).direct (normalizeTerm term) = _
    exact extractStep_direct_set _ _ _ _ hmatch hproto
  have hkey : normalizeTerm (cleanText sel) = normalizeTerm term := by
    rw [normalizeTerm_cleanText, hsel,
      normalizeTerm_junk w1 v w2 (fun c hc => ws_not_word c (hw1 c hc))
        (fun c hc => ws_not_word c (hw2 c hc)),
      normalizeTerm_caseVariant v term hv]
  have hvne : jsTrim g3 ≠ [] := by
    obtain ⟨⟨c, hh, hcws⟩, _⟩ := matchDirectRe_some _ _ _ hmatch
    exact jsTrim_ne_nil_of_head g3 c hh hcws
  unfold resolveSelection
  dsimp only
  rw [hkey, if_neg hkne, candidates_eq _ hkne]
  by_cases hcond : singularize (normalizeTerm term) = [] ∨
      singularize (normalizeTerm term) = normalizeTerm term
  · rw [if_pos hcond]
    simp [buildGlossaryTables, firstDirectHit, htbl, hvne]
  · rw [if_neg hcond]
    simp [buildGlossaryTables, firstDirectHit, htbl, hvne]

set_option maxHeartbeats 1600000 in
/-- C1 (amended) witness: one paragraph, selection " FEE ". -/
theorem C1_amended_direct_resolution_w :
    resolveSelection
        (buildGlossaryTables ["\"Fee\" means the agreed charge.".data]) " FEE ".data =
      LookupResult.found (cleanText " FEE ".data) (jsTrim "the agreed charge".data) :=
  C1_amended_direct_resolution [] [] "\"Fee\" means the agreed charge.".data
    "Fee".data "the agreed charge".data (by decide) (by decide) (by decide) (by simp)
    " FEE ".data [' '] "FEE".data [' '] (by decide) (by decide) (by decide) (by decide)

/-- C10: every TermKey stored in either table is a `normalizeTerm`
image, hence a fixed point of `normalizeTerm`: it has no uppercase
ASCII letter and no leading or trailing quote, whitespace or non-word
character (its first and last characters are word characters);
consequently the key a document occurrence is normalised to — and so
table membership — is insensitive to the occurrence's letter case and
to surrounding non-word junk (whitespace, quotes, punctuation). -/
theorem C10_keys_normalized (ps : List Str) (k : Str)
    (h : (extractDefsFromParagraphs ps).direct k ≠ none ∨
         (extractDefsFromParagraphs ps).xref k ≠ none) :
    (normalizeTerm k = k ∧
     (∀ c ∈ k, isAsciiUpper c = false) ∧
     (∀ c, k.head? = some c → isWordChar c = true) ∧
     (∀ c, k.getLast? = some c → isWordChar c = true)) ∧
    (∀ j1 v j2, (∀ c ∈ j1, isWordChar c = false) → (∀ c ∈ j2, isWordChar c = false) →
      ∀ t, caseVariant v t = true →
      normalizeTerm (j1 ++ v ++ j2) = normalizeTerm t ∧
      (extractDefsFromParagraphs ps).direct (normalizeTerm (j1 ++ v ++ j2)) =
        (extractDefsFromParagraphs ps).direct (normalizeTerm t) ∧
      (extractDefsFromParagraphs ps).xref (normalizeTerm (j1 ++ v ++ j2)) =
        (extractDefsFromParagraphs ps).xref (normalizeTerm t)) := by
  constructor
  · have hbase : (emptyTables.direct k ≠ none ∨ emptyTables.xref k ≠ none) →
        ∃ t, k = normalizeTerm t := by
      intro hac
      exfalso
      rcases hac with h0 | h0
      · exact h0 rfl
      · exact h0 rfl
    obtain ⟨t, rfl⟩ := foldl_keys_norm ps k emptyTables hbase h
    exact ⟨normalizeTerm_idem t, normalizeTerm_no_upper t,
      normalizeTerm_head_word t, normalizeTerm_last_word t⟩
  · intro j1 v j2 hj1 hj2 t hcv
    have hj := normalizeTerm_junk j1 v j2 hj1 hj2
    have hc := normalizeTerm_caseVariant v t hcv
    exact ⟨by rw [hj, hc], by rw [hj, hc], by rw [hj, hc]⟩

/-- C10 witness: the stored key "foo" is its own normalisation, and the
occurrence `"FOO"` (quoted, uppercase) normalises to it. -/
theorem C10_keys_normalized_w :
    normalizeTerm "foo".data = "foo".data ∧
    normalizeTerm (['"'] ++ "FOO".data ++ ['"']) = normalizeTerm "foo".data :=
  ⟨((C10_keys_normalized ["\"Foo\" means something good here.".data] "foo".data
      (Or.inl (by decide))).1).1,
   ((C10_keys_normalized ["\"Foo\" means something good here.".data] "foo".data
      (Or.inl (by decide))).2 ['"'] "FOO".data ['"'] (by decide) (by decide)
      "foo".data (by decide)).1⟩

end DTH
